import Mathlib

/-!
Verification development for the AgentsDotMD content-composition pipeline.

This file gives a shallow embedding, in Lean, of the JavaScript functions of the
repository that the claims concern, and proves (or refutes) each claim about them:

* metadata (frontmatter) parsing: `parseFrontmatter`, `parseScalarValue`
  (the loader module and `scripts/build-manifest.js` contain two line-for-line
  identical copies of this logic; it is embedded once),
* the fragment/combination loader: `loadFragments`, `loadCombinationFragments`,
* the dependency filter of the file-preview component: `filterFragments`,
* the template interpolator: `escapeHtml`, `interpolate`,
* the zip-packaging path: `interpolateTemplate`, `flattenOptions`, `buildZipFiles`,
* the diff engine: `computeDiff`, `computeLCS`, `formatUnifiedDiff`.

Embedding conventions:
* JavaScript strings are Lean `String`s manipulated through their codepoint list
  (`String.data`); string indices are codepoint indices (the sources never index
  into astral-plane text, where UTF-16 indices would differ).
* JavaScript's whitespace class is modelled by `Char.isWhitespace`.
* JavaScript numbers arising here are non-negative decimal literals; they are
  modelled exactly as a canonical scaled decimal (mantissa and decimal exponent,
  with no trailing zeros in the fractional part), so that JavaScript's value
  equality `5 === 5.0` is preserved; IEEE-754 rounding is abstracted away.
* `async` fetches are modelled by a pure function `fetch : String → FetchOutcome`
  distinguishing a resolved `ok` response with body text, a resolved non-ok
  (HTTP-error) response, and a rejected promise (network-level failure);
  `Promise.all` over the mapped item promises rejects when any item rejects and
  otherwise collects the resolved values in order, and an `async` function's
  result is an `Except` whose error side is the rejection/throw path.
* loops with non-structural cursors carry an explicit fuel argument that the
  top-level entry point sets large enough to be irrelevant (each lemma shows the
  fuel suffices); this keeps every definition executable by the kernel.
-/

set_option maxRecDepth 8000

/-! ## Character-list string helpers mirroring the JavaScript string methods -/

/-- The test `pat` begins the list `s` (JavaScript `String.prototype.startsWith`). -/
def listStartsWith : List Char → List Char → Bool
  | [], _ => true
  | _ :: _, [] => false
  | p :: ps, c :: cs => p == c && listStartsWith ps cs

/-- JavaScript `String.prototype.trim` (whitespace stripped from both ends). -/
def jsTrim (s : String) : String :=
  String.mk (((s.data.dropWhile Char.isWhitespace).reverse.dropWhile Char.isWhitespace).reverse)

/-- Auxiliary scanner for `splitLines`; `acc` holds the current line reversed. -/
def splitLinesAux : List Char → List Char → List String
  | [], acc => [String.mk acc.reverse]
  | c :: cs, acc =>
    if c = '\n' then String.mk acc.reverse :: splitLinesAux cs []
    else splitLinesAux cs (c :: acc)

/-- JavaScript `str.split('\n')`: the empty string yields `[""]`, and a trailing
newline yields a final empty line. -/
def splitLines (s : String) : List String := splitLinesAux s.data []

/-- First index `≥ start` at which `pat` occurs in `s`, scanning the suffix
`s.drop start` (JavaScript `String.prototype.indexOf(pat, start)` for a
non-empty `pat`). -/
def indexOfAux (pat : List Char) : List Char → Nat → Option Nat
  | [], i => if pat = [] then some i else none
  | s@(_ :: rest), i => if listStartsWith pat s then some i else indexOfAux pat rest (i + 1)

/-- JavaScript `s.indexOf(pat, start)` returning `none` for `-1`. -/
def indexOfFrom (s pat : List Char) (start : Nat) : Option Nat :=
  indexOfAux pat (s.drop start) start

/-- Numeric value of a digit string (the exact value of `parseInt(s, 10)` for an
all-digit `s`; JavaScript double precision is abstracted to the exact value). -/
def natOfDigits (l : List Char) : Nat :=
  l.foldl (fun acc c => acc * 10 + (c.toNat - '0'.toNat)) 0

/-! ## Metadata values and scalar coercion (`parseScalarValue` in the loader,
`parseScalar` in `scripts/build-manifest.js` — the two are identical) -/

/-- A scalar value decoded from a metadata header. JavaScript has a single
number type; `num mantissa exp` denotes the value `mantissa / 10 ^ exp` in
canonical form (`exp = 0`, or `mantissa` not divisible by 10), so structural
equality on `MetaValue` coincides with JavaScript `===` on the decoded values. -/
inductive MetaValue where
  | str (s : String)
  | num (mantissa : Nat) (exp : Nat)
  | bool (b : Bool)
deriving DecidableEq, Repr

/-- Drop trailing `'0'` digits from a fractional digit string (canonicalising
step for the exact decimal value of `parseFloat`). -/
def stripTrailingZeros (l : List Char) : List Char :=
  (l.reverse.dropWhile (fun c => c == '0')).reverse

/-- Exact value of `parseFloat` on a string matching `/^\d+\.\d+$/`, in
canonical scaled-decimal form. -/
def decimalOfParts (d1 d2 : List Char) : MetaValue :=
  let frac := stripTrailingZeros d2
  if frac = [] then MetaValue.num (natOfDigits d1) 0
  else MetaValue.num (natOfDigits d1 * 10 ^ frac.length + natOfDigits frac) frac.length

/-- Decomposition of a string matching `/^\d+\.\d+$/` into the digit runs before
and after the dot; `none` if the regex does not match. -/
def matchFloatParts (l : List Char) : Option (List Char × List Char) :=
  let d1 := l.takeWhile Char.isDigit
  let rest0 := l.dropWhile Char.isDigit
  if d1 ≠ [] ∧ rest0.head? = some '.' ∧ rest0.tail ≠ [] ∧ rest0.tail.all Char.isDigit = true then
    some (d1, rest0.tail)
  else none

/-- The regex test `/^\d+$/`. -/
def isAllDigits (l : List Char) : Bool :=
  decide (l ≠ []) && l.all Char.isDigit

/-- Scalar coercion of a raw header value (loader `parseScalarValue`,
build-manifest `parseScalar`): `"true"`/`"false"` to booleans, `/^\d+$/` via
`parseInt`, `/^\d+\.\d+$/` via `parseFloat`, a string that starts and ends with
the same quote character to `slice(1, -1)`, anything else verbatim. -/
def parseScalarValue (raw : String) : MetaValue :=
  if raw = "true" then MetaValue.bool true
  else if raw = "false" then MetaValue.bool false
  else if isAllDigits raw.data then MetaValue.num (natOfDigits raw.data) 0
  else
    match matchFloatParts raw.data with
    | some (d1, d2) => decimalOfParts d1 d2
    | none =>
      if (listStartsWith ['"'] raw.data && listStartsWith ['"'] raw.data.reverse)
          || (listStartsWith ['\''] raw.data && listStartsWith ['\''] raw.data.reverse) then
        MetaValue.str (String.mk ((raw.data.drop 1).take (raw.data.length - 2)))
      else MetaValue.str raw

/-! ## Frontmatter parsing (`parseFrontmatter`, identical in the loader module
and in `scripts/build-manifest.js`) -/

/-- An entry of the decoded metadata object: a scalar, or a one-level nested map
(opened by a key with an empty value and filled by indented lines). -/
inductive MetaEntry where
  | scalar (v : MetaValue)
  | map (m : List (String × MetaValue))
deriving DecidableEq, Repr

/-- The decoded metadata object, in insertion order. -/
abbrev Metadata := List (String × MetaEntry)

/-- JavaScript object assignment `m[k] = v` on an insertion-ordered object:
update in place if the key exists, else append. -/
def objUpsert {α : Type} (m : List (String × α)) (k : String) (v : α) : List (String × α) :=
  if m.any (fun p => p.1 == k) then m.map (fun p => if p.1 == k then (k, v) else p)
  else m ++ [(k, v)]

/-- JavaScript object read `m[k]` (`none` models `undefined`). -/
def objGet {α : Type} (m : List (String × α)) (k : String) : Option α :=
  (m.find? (fun p => p.1 == k)).map (fun p => p.2)

/-- Index of the last colon usable as the separator of the regex
`(\S+):` applied at the start of `line`: the greedy `\S+` backtracks to the
last `':'` at index `≥ 1` inside the maximal non-whitespace run. -/
def lastColonIdx (run : List Char) : Option Nat :=
  ((List.range run.length).filter
    (fun i => decide (1 ≤ i) && (run.getD i ' ' == ':'))).getLast?

/-- Match of the regex `^(\S+):\s*(.*)$` against `line`, returning the captured
key and the second capture (the remainder after the greedy `\s*`). -/
def matchKeyValue (line : List Char) : Option (String × String) :=
  let run := line.takeWhile (fun c => !c.isWhitespace)
  match lastColonIdx run with
  | none => none
  | some k =>
    some (String.mk (run.take k),
      String.mk ((line.drop (k + 1)).dropWhile Char.isWhitespace))

/-- Match of the regex `^[ \t]+(\S+):\s*(.*)$` against the raw line (the
indented nested-map entry form). -/
def matchIndented (line : List Char) : Option (String × String) :=
  match line with
  | [] => none
  | c :: _ =>
    if c = ' ' ∨ c = '\t' then
      matchKeyValue (line.dropWhile (fun c => c = ' ' ∨ c = '\t'))
    else none

/-- State of the `parseFrontmatter` line loop: the last top-level key, the open
nested map if the last top-level key had an empty value, and the metadata
object built so far. -/
structure FMState where
  currentKey : Option String
  currentMap : Option (List (String × MetaValue))
  metadata : Metadata
deriving DecidableEq, Repr

/-- One iteration of the `parseFrontmatter` loop over the header-block lines. -/
def fmLine (st : FMState) (line : String) : FMState :=
  let trimmedLine := jsTrim line
  if trimmedLine = "" then st
  else
    match matchIndented line.data, st.currentKey, st.currentMap with
    | some (nestedKey, nestedValue), some ck, some cm =>
      let cm2 := objUpsert cm nestedKey (parseScalarValue (jsTrim nestedValue))
      { st with currentMap := some cm2, metadata := objUpsert st.metadata ck (MetaEntry.map cm2) }
    | _, _, _ =>
      match matchKeyValue trimmedLine.data with
      | some (key, rawValue0) =>
        let rawValue := jsTrim rawValue0
        if rawValue = "" then { st with currentKey := some key, currentMap := some [] }
        else
          { currentKey := some key, currentMap := none,
            metadata := objUpsert st.metadata key (MetaEntry.scalar (parseScalarValue rawValue)) }
      | none => st

/-- Result of `parseFrontmatter`: the decoded metadata and the body text. -/
structure FrontmatterResult where
  metadata : Metadata
  content : String
deriving DecidableEq, Repr

/-- The frontmatter parser: split on `---` delimiters, parse simple
`key: value` lines and one level of indented nested maps; if the trimmed text
does not start with `---`, or no second `---` occurs from index 3 on, degrade
to empty metadata with the whole trimmed text as body. -/
def parseFrontmatter (markdownText : String) : FrontmatterResult :=
  let trimmed := jsTrim markdownText
  if !listStartsWith ("---".data) trimmed.data then
    { metadata := [], content := trimmed }
  else
    match indexOfFrom trimmed.data ("---".data) 3 with
    | none => { metadata := [], content := trimmed }
    | some secondDelimiter =>
      let frontmatterBlock := jsTrim (String.mk ((trimmed.data.drop 3).take (secondDelimiter - 3)))
      let content := jsTrim (String.mk (trimmed.data.drop (secondDelimiter + 3)))
      let st := (splitLines frontmatterBlock).foldl fmLine ⟨none, none, []⟩
      { metadata := st.metadata, content := content }

/-! ## Claim C8: scalar coercion behavior -/

/-- The string is enclosed in matching quotes in the strict sense: it has at
least two characters and its first and last characters are the same quote. -/
def SpecQuoted (raw : String) : Prop :=
  2 ≤ raw.data.length ∧
    ((raw.data.head? = some '"' ∧ raw.data.getLast? = some '"') ∨
     (raw.data.head? = some '\'' ∧ raw.data.getLast? = some '\''))

/-- The raw value hits none of the coercion forms of `parseScalarValue`. -/
def SpecVerbatim (raw : String) : Prop :=
  raw ≠ "true" ∧ raw ≠ "false" ∧
  ¬(raw.data ≠ [] ∧ raw.data.all Char.isDigit = true) ∧
  matchFloatParts raw.data = none ∧
  ¬((raw.data.head? = some '"' ∧ raw.data.getLast? = some '"') ∨
    (raw.data.head? = some '\'' ∧ raw.data.getLast? = some '\''))

/-! ## The fragment loader (loader module `loadFragments`,
`loadCombinationFragments`). The manifest is passed in explicitly, standing for
the memoized `getManifest()` result. Fetching is a pure function from URL to
`FetchOutcome`: the per-item callbacks handle only a resolved non-ok response
(`if (!response.ok) return null`); the `await fetch(url)` and
`await response.text()` themselves are not wrapped in any try/catch, so a
rejected fetch rejects the item's promise, `Promise.all` rejects, and the whole
`async` call rejects. The repository owner/name defaults of the module are used
(the `setPromptRepoUrl` mutation is out of claim scope). -/

/-- Outcome of `await fetch(url)` followed by reading the body: the promise
rejects (network-level failure; a rejecting `response.text()` propagates
identically), or it resolves to a non-ok response (HTTP error status), or it
resolves ok with the body text. -/
inductive FetchOutcome where
  | reject
  | httpError
  | ok (body : String)
deriving DecidableEq, Repr

/-- The failure side of an `async` loader call: the explicit
`throw new Error(...)` on an unknown technology, or an uncaught per-item
fetch rejection propagated through `Promise.all`. -/
inductive LoadError where
  | thrown (message : String)
  | rejected
deriving DecidableEq, Repr

deriving instance DecidableEq for Except

/-- Default prompt-repository owner (module-level state default). -/
def repoOwner : String := "GarrettPeake"

/-- Default prompt-repository name (module-level state default). -/
def repoName : String := "AgentsDotMD-prompts"

/-- The loader's `getBaseUrl()`. -/
def getBaseUrl : String :=
  "https://raw.githubusercontent.com/" ++ repoOwner ++ "/" ++ repoName ++ "/main"

/-- Manifest entry of one technology; only the fields the loader functions
consult are carried (an absent `fragments` field is the empty list, matching
`tech.fragments || []`). -/
structure Technology where
  id : String
  fragments : List String
deriving DecidableEq, Repr

/-- Manifest entry of one combination (`combo.fragments || []` likewise). -/
structure Combination where
  id : String
  technologies : List String
  fragments : List String
deriving DecidableEq, Repr

/-- The manifest document (`manifest.combinations || []` likewise). -/
structure Manifest where
  technologies : List Technology
  combinations : List Combination
deriving DecidableEq, Repr

/-- A loaded fragment: resolved id, body content, parsed metadata. The id field
holds whatever truthy value `metadata.id` carries (any scalar or map), else the
filename with its `.md` suffix stripped. -/
structure Fragment where
  id : MetaEntry
  content : String
  metadata : Metadata
deriving DecidableEq, Repr

/-- JavaScript truthiness of a decoded metadata entry (objects are truthy;
`""`, `0` and `false` are falsy). -/
def jsTruthy : MetaEntry → Bool
  | MetaEntry.scalar (MetaValue.str s) => decide (s ≠ "")
  | MetaEntry.scalar (MetaValue.num m _) => decide (m ≠ 0)
  | MetaEntry.scalar (MetaValue.bool b) => b
  | MetaEntry.map _ => true

/-- The filename transform `fragmentPath.replace(/\.md$/, '')`. -/
def stripMdSuffix (p : String) : String :=
  if listStartsWith (".md".data.reverse) p.data.reverse then
    String.mk (p.data.take (p.data.length - 3))
  else p

/-- The id resolution `metadata.id || fragmentPath.replace(/\.md$/, '')`. -/
def fragmentId (metadata : Metadata) (fragmentPath : String) : MetaEntry :=
  match objGet metadata "id" with
  | some v =>
    if jsTruthy v then v else MetaEntry.scalar (MetaValue.str (stripMdSuffix fragmentPath))
  | none => MetaEntry.scalar (MetaValue.str (stripMdSuffix fragmentPath))

/-- Construction of one loaded fragment from a successfully fetched body. -/
def mkFragment (fragmentPath text : String) : Fragment :=
  let fm := parseFrontmatter text
  { id := fragmentId fm.metadata fragmentPath, content := fm.content, metadata := fm.metadata }

/-- Fragment directory URL of a technology. -/
def fragmentsDirUrl (technologyId : String) : String :=
  getBaseUrl ++ "/prompts/technologies/" ++ technologyId ++ "/fragments"

/-- Fragment directory URL of a combination. -/
def comboDirUrl (comboId : String) : String :=
  getBaseUrl ++ "/prompts/combinations/" ++ comboId ++ "/fragments"

/-- The per-item `async (fragmentPath) => ...` callback mapped over the
fragment paths: a rejecting fetch rejects this item's promise (the callback
has no try/catch); a resolved non-ok response is logged and mapped to `null`;
an ok response's body is parsed into a fragment. -/
def loadFragmentItem (fetch : String → FetchOutcome) (dir fragmentPath : String) :
    Except Unit (Option Fragment) :=
  match fetch (dir ++ "/" ++ fragmentPath) with
  | FetchOutcome.reject => Except.error ()
  | FetchOutcome.httpError => Except.ok none
  | FetchOutcome.ok text => Except.ok (some (mkFragment fragmentPath text))

/-- `Promise.all` over the item promises: it rejects when any item's promise
rejects, otherwise it resolves to the list of resolved values in order. -/
def promiseAll {α : Type} : List (Except Unit α) → Except Unit (List α)
  | [] => Except.ok []
  | Except.error _ :: _ => Except.error ()
  | Except.ok v :: rest =>
    match promiseAll rest with
    | Except.error _ => Except.error ()
    | Except.ok vs => Except.ok (v :: vs)

/-- The value a non-rejecting item's promise resolves to: the parsed fragment
on an ok response, `null` on an HTTP error (`reject` does not resolve; the
`none` value for it here is never consulted). -/
def resolvedItem (fetch : String → FetchOutcome) (dir fragmentPath : String) :
    Option Fragment :=
  match fetch (dir ++ "/" ++ fragmentPath) with
  | FetchOutcome.ok text => some (mkFragment fragmentPath text)
  | _ => none

/-- The loaded fragments a successful batch keeps: one per listed path whose
fetch resolved ok, in path order (the resolved-non-ok `null` items are the
ones `results.filter(Boolean)` drops). -/
def keptFragments (fetch : String → FetchOutcome) (dir : String)
    (paths : List String) : List Fragment :=
  paths.filterMap (fun fragmentPath => resolvedItem fetch dir fragmentPath)

/-- The loader's `loadFragments(technologyId)`: throw when the technology is
not in the manifest; otherwise `Promise.all` the per-file callbacks — an
uncaught rejection of any one item rejects the whole call — and on success
drop the `null` items (`results.filter(Boolean)`). -/
def loadFragments (fetch : String → FetchOutcome) (manifest : Manifest)
    (technologyId : String) : Except LoadError (List Fragment) :=
  match manifest.technologies.find? (fun t => t.id == technologyId) with
  | none => Except.error (LoadError.thrown ("Technology not found: " ++ technologyId))
  | some tech =>
    match promiseAll (tech.fragments.map (fun fragmentPath =>
        loadFragmentItem fetch (fragmentsDirUrl technologyId) fragmentPath)) with
    | Except.error _ => Except.error LoadError.rejected
    | Except.ok results => Except.ok (results.filterMap id)

/-- String comparison of the default `Array.prototype.sort` comparator
(lexicographic; code-unit order is codepoint order on the identifiers that
occur here). -/
def jsStringLt : List Char → List Char → Bool
  | [], [] => false
  | [], _ :: _ => true
  | _ :: _, [] => false
  | x :: xs, y :: ys => if x < y then true else if y < x then false else jsStringLt xs ys

/-- Insertion step of the sort model. -/
def insertSorted (x : String) : List String → List String
  | [] => [x]
  | y :: ys => if jsStringLt x.data y.data then x :: y :: ys else y :: insertSorted x ys

/-- Model of `[...ids].sort()`: the sorted permutation of the input. -/
def sortStrings (l : List String) : List String := l.foldr insertSorted []

/-- The combination match test of `loadCombinationFragments`:
`comboTechs.every(t => sortedIds.includes(t))` on the sorted copies. -/
def comboMatches (combo : Combination) (techIds : List String) : Bool :=
  let sortedIds := sortStrings techIds
  let comboTechs := sortStrings combo.technologies
  comboTechs.all (fun t => sortedIds.contains t)

/-- Per-combination fragment loading: the awaited `Promise.all` over the
combination's files (rejecting when any item rejects) followed by
`fragments.filter(Boolean)`. -/
def loadComboItems (fetch : String → FetchOutcome) (combo : Combination) :
    Except Unit (List Fragment) :=
  match promiseAll (combo.fragments.map (fun fragmentPath =>
      loadFragmentItem fetch (comboDirUrl combo.id) fragmentPath)) with
  | Except.error _ => Except.error ()
  | Except.ok results => Except.ok (results.filterMap id)

/-- The sequential `for (const combo of combinations)` loop of
`loadCombinationFragments`: a non-matching combination is skipped
(`continue`); a matching one awaits its batch — a rejection there rejects the
whole call on the spot — and pushes the kept items onto the result. -/
def loadCombinationsLoop (fetch : String → FetchOutcome) (techIds : List String) :
    List Combination → Except LoadError (List Fragment)
  | [] => Except.ok []
  | combo :: rest =>
    if comboMatches combo techIds then
      match loadComboItems fetch combo with
      | Except.error _ => Except.error LoadError.rejected
      | Except.ok frags =>
        match loadCombinationsLoop fetch techIds rest with
        | Except.error e => Except.error e
        | Except.ok more => Except.ok (frags ++ more)
    else loadCombinationsLoop fetch techIds rest

/-- The loader's `loadCombinationFragments(techIds)`: run the combination loop
over the manifest's combinations. -/
def loadCombinationFragments (fetch : String → FetchOutcome) (manifest : Manifest)
    (techIds : List String) : Except LoadError (List Fragment) :=
  loadCombinationsLoop fetch techIds manifest.combinations

/-! ## The dependency filter of the file-preview component
(`_filterFragments(fragments, options)`), which mirrors the generator logic:
keep a fragment iff every entry of `metadata.optionDependencies` is satisfied
by the owner technology's current option values. Dependency values are either
a scalar (strict-equality test) or an array (membership test); option values
come from the parsed metadata domain, and an absent value is `undefined`. -/

/-- A dependency-predicate entry value: a required scalar or a required list. -/
inductive DepVal where
  | scalar (v : MetaValue)
  | list (l : List MetaValue)
deriving DecidableEq, Repr

/-- The metadata fields consulted by the filter. `technology := none` models an
absent owner id, and `optionDependencies := none` models an absent or
non-object `optionDependencies` field (both make `!deps || typeof deps !==
'object'` keep the fragment). -/
structure PreviewMeta where
  technology : Option String
  optionDependencies : Option (List (String × DepVal))
deriving DecidableEq, Repr

/-- A fragment as rendered by the file preview. -/
structure PreviewFragment where
  id : String
  content : String
  metadata : PreviewMeta
deriving DecidableEq, Repr

/-- The per-session option-value state `options[techId][optionId]`. -/
abbrev OptionValues := List (String × List (String × MetaValue))

/-- The current value `(options[fragment.metadata.technology] || {})[optionId]`
(`none` is JavaScript `undefined`). -/
def currentValueOf (options : OptionValues) (fragment : PreviewFragment)
    (optionId : String) : Option MetaValue :=
  match fragment.metadata.technology with
  | some techId => objGet ((objGet options techId).getD []) optionId
  | none => none

/-- The keep test of `_filterFragments` for one fragment: every dependency
entry must pass — an array by `indexOf(currentValue) !== -1` (an `undefined`
current value is in no array of scalars), a scalar by `currentValue ===
requiredValue` (which `undefined` fails). -/
def keepFragment (options : OptionValues) (fragment : PreviewFragment) : Bool :=
  match fragment.metadata.optionDependencies with
  | none => true
  | some deps =>
    deps.all (fun kv =>
      match kv.2 with
      | DepVal.list l =>
        match currentValueOf options fragment kv.1 with
        | some cv => l.contains cv
        | none => false
      | DepVal.scalar v => currentValueOf options fragment kv.1 == some v)

/-- The file preview's `_filterFragments(fragments, options)`. -/
def filterFragments (fragments : List PreviewFragment) (options : OptionValues) :
    List PreviewFragment :=
  fragments.filter (keepFragment options)

/-- Claim C4's satisfaction predicate, as worded: every predicate entry is
satisfied — a scalar entry by strict equality with the owner's current value,
a list entry by membership of the current value in the list (so an absent
value fails both forms) — and a fragment with no predicate is always kept. -/
def DepSatisfied (options : OptionValues) (fragment : PreviewFragment) : Prop :=
  ∀ kv ∈ (fragment.metadata.optionDependencies).getD [],
    match kv.2 with
    | DepVal.scalar v => currentValueOf options fragment kv.1 = some v
    | DepVal.list l => ∃ cv, currentValueOf options fragment kv.1 = some cv ∧ cv ∈ l

/-! ## The template interpolator (`escapeHtml`, `interpolate` of the template
engine module) and the zip-packaging interpolation (`interpolateTemplate`,
`flattenOptions`, `buildZip` of the zip builder module). Variable values are
modelled as strings (`String(value)` and `escapeHtml`'s `String(str)` coercion
are the identity there); a JavaScript object of vars is an
insertion-ordered association list with unique keys. -/

/-- One global single-character `String.prototype.replace(/c/g, rep)` pass. -/
def replaceChar (target : Char) (rep : List Char) : List Char → List Char
  | [] => []
  | c :: cs =>
    if c = target then rep ++ replaceChar target rep cs
    else c :: replaceChar target rep cs

/-- The template engine's `escapeHtml`: five sequential global replacements,
ampersand first. -/
def escapeHtml (str : String) : String :=
  String.mk
    (replaceChar '\'' ("&#39;".data)
      (replaceChar '"' ("&quot;".data)
        (replaceChar '>' ("&gt;".data)
          (replaceChar '<' ("&lt;".data)
            (replaceChar '&' ("&amp;".data) str.data)))))

/-- Match of the regex `\{\{([^}]+)\}\}` at the current scan position:
two opening braces, a non-empty greedy run of non-`}` characters, two closing
braces; returns the captured name and the remainder after the match. -/
def matchPlaceholder (s : List Char) : Option (List Char × List Char) :=
  if s.head? = some '\x7b' ∧ s.tail.head? = some '\x7b' then
    let rest2 := s.tail.tail
    let name := rest2.takeWhile (fun ch => ch ≠ '\x7d')
    let after0 := rest2.dropWhile (fun ch => ch ≠ '\x7d')
    if name ≠ [] ∧ after0.head? = some '\x7d' ∧ after0.tail.head? = some '\x7d' then
      some (name, after0.tail.tail)
    else none
  else none

/-- The left-to-right global `replace` scan of `interpolate`: at a placeholder
match, substitute the HTML-escaped value when the trimmed name is a key of
`vars` (`hasOwnProperty`), else emit the match verbatim; at a non-match,
emit one character and rescan from the next position. The fuel decreases once
per emitted unit and the entry point passes the input length, which the lemmas
show is never exhausted. -/
def interpAux (vars : List (String × String)) : Nat → List Char → List Char
  | 0, s => s
  | _ + 1, [] => []
  | fuel + 1, c :: rest =>
    match matchPlaceholder (c :: rest) with
    | some (name, after) =>
      match objGet vars (jsTrim (String.mk name)) with
      | some v => (escapeHtml v).data ++ interpAux vars fuel after
      | none => '\x7b' :: '\x7b' :: (name ++ '\x7d' :: '\x7d' :: interpAux vars fuel after)
    | none => c :: interpAux vars fuel rest

/-- The template engine's `interpolate(templateContent, vars)`. The
`!templateContent` guard returns `templateContent || ''`, which for a string
input only changes the ("" falsy) empty input into `''`; the `typeof` guards
cannot fire in the typed embedding. -/
def interpolate (templateContent : String) (vars : List (String × String)) : String :=
  if templateContent = "" then ""
  else String.mk (interpAux vars templateContent.data.length templateContent.data)

/-- The zip builder's scan of `interpolateTemplate`: same regex and scan as
`interpolate`, but the substituted value is the raw `String(value)` — no
escaping — and the presence test is `flatOptions[trimmed] !== undefined`
(a defined lookup in this model). -/
def interpTAux (flatOptions : List (String × String)) : Nat → List Char → List Char
  | 0, s => s
  | _ + 1, [] => []
  | fuel + 1, c :: rest =>
    match matchPlaceholder (c :: rest) with
    | some (name, after) =>
      match objGet flatOptions (jsTrim (String.mk name)) with
      | some v => v.data ++ interpTAux flatOptions fuel after
      | none => '\x7b' :: '\x7b' :: (name ++ '\x7d' :: '\x7d' :: interpTAux flatOptions fuel after)
    | none => c :: interpTAux flatOptions fuel rest

/-- The zip builder's `interpolateTemplate(content, flatOptions)` (no guards). -/
def interpolateTemplate (content : String) (flatOptions : List (String × String)) : String :=
  String.mk (interpTAux flatOptions content.data.length content.data)

/-- The zip builder's `flattenOptions(options)`: for every technology and
option, assign the bare `optionId` key and then the namespaced
`techId.optionId` key, in object iteration order, with the last writer winning
on collisions. -/
def flattenOptions (options : List (String × List (String × String))) :
    List (String × String) :=
  options.foldl (fun flat p =>
    p.2.foldl (fun fl q => objUpsert (objUpsert fl q.1 q.2) (p.1 ++ "." ++ q.1) q.2) flat) []

/-- Manifest technology fields consulted by the composite-gitignore builder. -/
structure TechInfo where
  id : String
  name : String
  gitignore : List String
deriving DecidableEq, Repr

/-- The zip builder's `buildCompositeGitignore`: one `# name` section per
selected technology with a non-empty `gitignore` list, each entry emitted once
globally (first occurrence wins), sections separated by blank lines, and the
whole joined text trimmed. -/
def buildCompositeGitignore (selectedTechIds : List String)
    (technologies : List TechInfo) : String :=
  let step : (List String × List String) → String → (List String × List String) :=
    fun acc techId =>
      match technologies.find? (fun t => t.id == techId) with
      | none => acc
      | some tech =>
        if tech.gitignore.isEmpty then acc
        else
          let folded := tech.gitignore.foldl
            (fun (p : List String × List String) entry =>
              if p.1.contains entry then p else (p.1 ++ [entry], p.2 ++ [entry]))
            (acc.1, [])
          (folded.1, acc.2 ++ ("# " ++ tech.name) :: folded.2 ++ [""])
  jsTrim (String.intercalate "\n" (selectedTechIds.foldl step ([], [])).2)

/-- A template file as stored for packaging. -/
structure TemplateFile where
  outputPath : String
  content : String
deriving DecidableEq, Repr

/-- The pure core of the zip builder's `buildZip`: the list of
`(path, content)` pairs added to the archive, in `zip.file` call order — the
generated markdown under `filename || 'AGENTS.md'`, each template interpolated
with `interpolateTemplate` over the flattened options, and the composite
`.gitignore` when non-empty. (The JSZip blob packaging and download are the
out-of-scope collaborator.) -/
def buildZipFiles (filename generatedMarkdown : String) (templateFiles : List TemplateFile)
    (options : List (String × List (String × String))) (selectedTechIds : List String)
    (technologies : List TechInfo) : List (String × String) :=
  let flatOptions := flattenOptions options
  let gitignoreContent := buildCompositeGitignore selectedTechIds technologies
  ((if filename = "" then "AGENTS.md" else filename), generatedMarkdown) ::
    templateFiles.map (fun t => (t.outputPath, interpolateTemplate t.content flatOptions)) ++
    (if gitignoreContent = "" then [] else [(".gitignore", gitignoreContent)])

/-! ## The diff engine (`computeDiff`, `computeLCS`, `formatUnifiedDiff`).
`computeLCS` builds the `(m+1)×(n+1)` dynamic-programming table exactly as the
nested loops do (row by row from the previous row) and then backtracks from
`(m, n)`; the backtracking cursor pair decreases in sum at every step, so a
fuel of `m + n` is exact. The `computeDiff` walk advances at least one of its
two cursors per emitted entry, so a fuel of `|original| + |modified|` suffices;
its two stuck states (one side exhausted while the next LCS element equals the
other side's head) make the JavaScript loop spin forever and are proved
unreachable for an actual LCS, which is a common subsequence. -/

/-- The kind of a diff entry. -/
inductive DiffType where
  | context
  | added
  | removed
deriving DecidableEq, Repr

/-- One line-level diff entry. -/
structure DiffEntry where
  type : DiffType
  line : String
deriving DecidableEq, Repr

/-- Inner loop of the DP-table construction: given the previous row (as the
pair of the diagonal value and the remaining suffix from `dp[i-1][j]` on) and
the value to the left, produce `dp[i][1..n]`. -/
def lcsRowAux (x : String) : List String → List Nat → Nat → Nat → List Nat
  | [], _, _, _ => []
  | y :: ys, prest, diag, left =>
    let up := prest.headD 0
    let cur := if x = y then diag + 1 else max up left
    cur :: lcsRowAux x ys prest.tail up cur

/-- Row `i` of the DP table (`dp[i][0] = 0`, then the inner loop). -/
def lcsRow (x : String) (b : List String) (prevRow : List Nat) : List Nat :=
  0 :: lcsRowAux x b prevRow.tail (prevRow.headD 0) 0

/-- The full `(m+1)×(n+1)` DP table of LCS lengths, built row by row. -/
def lcsTable (a b : List String) : List (List Nat) :=
  a.foldl (fun rows x => rows ++ [lcsRow x b (rows.getLastD [])])
    [List.replicate (b.length + 1) 0]

/-- Table lookup `dp[i][j]` (out-of-range reads 0; never reached from the
backtracking start). -/
def dpAt (dp : List (List Nat)) (i j : Nat) : Nat := (dp.getD i []).getD j 0

/-- The backtracking loop of `computeLCS`: from `(i, j)` move diagonally on a
line match (prepending the matched line), else towards the larger of
`dp[i-1][j]` and `dp[i][j-1]` (ties go left, as `else { j-- }` does). -/
def lcsBacktrack (a b : List String) (dp : List (List Nat)) : Nat → Nat → Nat → List String
  | 0, _, _ => []
  | _ + 1, 0, _ => []
  | _ + 1, _ + 1, 0 => []
  | fuel + 1, i + 1, j + 1 =>
    if a.getD i "" = b.getD j "" then lcsBacktrack a b dp fuel i j ++ [a.getD i ""]
    else if dpAt dp i (j + 1) > dpAt dp (i + 1) j then lcsBacktrack a b dp fuel i (j + 1)
    else lcsBacktrack a b dp fuel (i + 1) j

/-- The diff module's `computeLCS(a, b)`. -/
def computeLCS (a b : List String) : List String :=
  lcsBacktrack a b (lcsTable a b) (a.length + b.length) a.length b.length

/-- The cursor walk of `computeDiff` over the original lines, modified lines
and LCS: equal heads on all three emit `context`; else an original head that
misses the next LCS element is `removed`; else a modified head that misses it
is `added`. The two `[]` results guarded by an equality test are the states in
which the JavaScript `while` loop would spin forever (no branch applies); they
are unreachable when the third list is a common subsequence of the first two. -/
def diffWalk : Nat → List String → List String → List String → List DiffEntry
  | 0, _, _, _ => []
  | _ + 1, [], [], _ => []
  | fuel + 1, x :: os, y :: ms, lc :: ls =>
    if x = lc then
      if y = lc then { type := DiffType.context, line := x } :: diffWalk fuel os ms ls
      else { type := DiffType.added, line := y } :: diffWalk fuel (x :: os) ms (lc :: ls)
    else { type := DiffType.removed, line := x } :: diffWalk fuel os (y :: ms) (lc :: ls)
  | fuel + 1, x :: os, y :: ms, [] =>
    { type := DiffType.removed, line := x } :: diffWalk fuel os (y :: ms) []
  | fuel + 1, x :: os, [], lc :: ls =>
    if x = lc then []
    else { type := DiffType.removed, line := x } :: diffWalk fuel os [] (lc :: ls)
  | fuel + 1, x :: os, [], [] =>
    { type := DiffType.removed, line := x } :: diffWalk fuel os [] []
  | fuel + 1, [], y :: ms, lc :: ls =>
    if y = lc then []
    else { type := DiffType.added, line := y } :: diffWalk fuel [] ms (lc :: ls)
  | fuel + 1, [], y :: ms, [] =>
    { type := DiffType.added, line := y } :: diffWalk fuel [] ms []

/-- The diff module's `computeDiff(original, modified)`: split into lines
(`(original || '')` only turns a missing argument into `''` and is the
identity on strings), compute the LCS, then walk. -/
def computeDiff (original modified : String) : List DiffEntry :=
  let originalLines := splitLines original
  let modifiedLines := splitLines modified
  let lcs := computeLCS originalLines modifiedLines
  diffWalk (originalLines.length + modifiedLines.length) originalLines modifiedLines lcs

/-- The lines of the `context` and `removed` entries of a diff, in emitted
order (the original-side projection of the claim). -/
def diffOrigLines (d : List DiffEntry) : List String :=
  (d.filter (fun e => e.type == DiffType.context || e.type == DiffType.removed)).map
    (fun e => e.line)

/-- The lines of the `context` and `added` entries of a diff, in emitted order
(the modified-side projection of the claim). -/
def diffModLines (d : List DiffEntry) : List String :=
  (d.filter (fun e => e.type == DiffType.context || e.type == DiffType.added)).map
    (fun e => e.line)

/-! ## Unified diff formatting (`formatUnifiedDiff`) -/

/-- A diff entry annotated with its 1-based line number on each side
(`null` on the side a `removed`/`added` entry does not touch). -/
structure NumberedEntry where
  type : DiffType
  line : String
  origLine : Option Nat
  modLine : Option Nat
deriving DecidableEq, Repr

/-- The numbering pass of `formatUnifiedDiff`: walk the diff entries carrying
1-based counters for both sides; `context` advances both, `removed` only the
original side, `added` only the modified side. -/
def numberEntries : List DiffEntry → Nat → Nat → List NumberedEntry
  | [], _, _ => []
  | e :: rest, origLine, modLine =>
    match e.type with
    | DiffType.context =>
      { type := DiffType.context, line := e.line, origLine := some origLine,
        modLine := some modLine } :: numberEntries rest (origLine + 1) (modLine + 1)
    | DiffType.removed =>
      { type := DiffType.removed, line := e.line, origLine := some origLine,
        modLine := none } :: numberEntries rest (origLine + 1) modLine
    | DiffType.added =>
      { type := DiffType.added, line := e.line, origLine := none,
        modLine := some modLine } :: numberEntries rest origLine (modLine + 1)

/-- The indices of the non-`context` entries, in order (`changeIndices` loop;
`i` is the index of the first entry of the remaining list). -/
def changeIndices : List NumberedEntry → Nat → List Nat
  | [], _ => []
  | e :: rest, i =>
    if e.type == DiffType.context then changeIndices rest (i + 1)
    else i :: changeIndices rest (i + 1)

/-- The hunk-grouping loop over the remaining change indices, carrying the
current hunk window `[s, e]` over entry indices: a new change whose context
window starts at or before `e + 1` merges (extending the end), otherwise the
current window is emitted and a fresh window starts. `n` is the entry count;
subtraction is the JavaScript `Math.max(0, c - contextLines)` since `Nat`
subtraction truncates at zero. -/
def buildHunks (n ctx : Nat) : List Nat → Nat → Nat → List (Nat × Nat)
  | [], s, e => [(s, e)]
  | c :: cs, s, e =>
    let ns := c - ctx
    let ne := min (n - 1) (c + ctx)
    if ns ≤ e + 1 then buildHunks n ctx cs s ne
    else (s, e) :: buildHunks n ctx cs ns ne

/-- The `entries.slice(hunk.start, hunk.end + 1)` window of a hunk. -/
def hunkSlice (entries : List NumberedEntry) (hk : Nat × Nat) : List NumberedEntry :=
  (entries.drop hk.1).take (hk.2 + 1 - hk.1)

/-- A hunk header line `@@ -origStart,origCount +modStart,modCount @@`. -/
def hunkHeader (origStart origCount modStart modCount : Nat) : String :=
  "@@ -" ++ toString origStart ++ "," ++ toString origCount ++
    " +" ++ toString modStart ++ "," ++ toString modCount ++ " @@"

/-- The body rendering of one entry: a space, `-` or `+` prefix. -/
def renderLine (e : NumberedEntry) : String :=
  match e.type with
  | DiffType.context => " " ++ e.line
  | DiffType.removed => "-" ++ e.line
  | DiffType.added => "+" ++ e.line

/-- Rendering of one hunk: the header computed from the window's first
original-side and modified-side line numbers (`|| 1` when a side is absent)
and the per-side entry counts, followed by the prefixed body lines. -/
def renderHunk (entries : List NumberedEntry) (hk : Nat × Nat) : List String :=
  let hunkEntries := hunkSlice entries hk
  let origEntries := hunkEntries.filter (fun e => !(e.type == DiffType.added))
  let modEntries := hunkEntries.filter (fun e => !(e.type == DiffType.removed))
  let origStart := (origEntries.head?.bind NumberedEntry.origLine).getD 1
  let modStart := (modEntries.head?.bind NumberedEntry.modLine).getD 1
  hunkHeader origStart origEntries.length modStart modEntries.length ::
    hunkEntries.map renderLine

/-- The hunk list of a formatted diff (empty when there are no changes). -/
def hunksOf (entries : List NumberedEntry) (ctx : Nat) : List (Nat × Nat) :=
  match changeIndices entries 0 with
  | [] => []
  | c0 :: rest =>
    buildHunks entries.length ctx rest (c0 - ctx) (min (entries.length - 1) (c0 + ctx))

/-- The diff module's `formatUnifiedDiff(original, modified, contextLines)`
(the JavaScript default for `contextLines` is 3): number the entries, collect
the change indices, return `''` when there are none, else group them into
hunks and emit the `---`/`+++` file header followed by each hunk's header and
body, joined with newlines. -/
def formatUnifiedDiff (original modified : String) (contextLines : Nat) : String :=
  let diff := computeDiff original modified
  let entries := numberEntries diff 1 1
  match changeIndices entries 0 with
  | [] => ""
  | c0 :: rest =>
    let n := entries.length
    let hunks := buildHunks n contextLines rest (c0 - contextLines)
      (min (n - 1) (c0 + contextLines))
    String.intercalate "\n"
      ("--- original" :: "+++ modified" :: hunks.flatMap (renderHunk entries))

/-- The numbered entry list of a diff, counters starting at 1 as in
`formatUnifiedDiff`. -/
def numberedDiff (original modified : String) : List NumberedEntry :=
  numberEntries (computeDiff original modified) 1 1

/-! ## Lemmas about the string helpers -/

/-- Match of a single-character pattern is a head test. -/
theorem listStartsWith_single_iff (c : Char) (l : List Char) :
    listStartsWith [c] l = true ↔ l.head? = some c := by
  cases l with
  | nil => simp [listStartsWith]
  | cons x xs =>
    simp only [listStartsWith, Bool.and_eq_true, beq_iff_eq, List.head?_cons, Option.some.injEq]
    constructor
    · rintro ⟨rfl, _⟩; rfl
    · rintro rfl; exact ⟨rfl, trivial⟩

/-- With a non-empty pattern, `indexOfAux` misses exactly when the pattern
occurs at no suffix. -/
theorem indexOfAux_eq_none_iff (pat : List Char) (hp : pat ≠ []) :
    ∀ (l : List Char) (i : Nat),
      (indexOfAux pat l i = none ↔ ∀ j, listStartsWith pat (l.drop j) = false) := by
  intro l
  induction l with
  | nil =>
    intro i
    obtain ⟨p, ps, rfl⟩ := List.exists_cons_of_ne_nil hp
    simp [indexOfAux, listStartsWith]
  | cons c cs ih =>
    intro i
    rw [indexOfAux]
    by_cases h : listStartsWith pat (c :: cs) = true
    · rw [if_pos h]
      constructor
      · intro h'; cases h'
      · intro h'
        have h0 := h' 0
        rw [List.drop_zero, h] at h0
        cases h0
    · rw [if_neg h, ih (i + 1)]
      have hfalse : listStartsWith pat (c :: cs) = false := by
        cases hb : listStartsWith pat (c :: cs) with
        | false => rfl
        | true => exact absurd hb h
      constructor
      · intro h' j
        cases j with
        | zero => rw [List.drop_zero]; exact hfalse
        | succ k => rw [List.drop_succ_cons]; exact h' k
      · intro h' j
        rw [← List.drop_succ_cons (a := c)]
        exact h' (j + 1)

/-- The `indexOf(pat, 3)` search for the closing `---` misses exactly when no
occurrence of `---` begins at any index `≥ 3`. -/
theorem indexOfFrom_none_iff (l : List Char) :
    indexOfFrom l ("---".data) 3 = none ↔
      ∀ i, 3 ≤ i → listStartsWith ("---".data) (l.drop i) = false := by
  rw [indexOfFrom, indexOfAux_eq_none_iff _ (by decide)]
  constructor
  · intro h i hi
    have := h (i - 3)
    rw [List.drop_drop] at this
    rwa [show 3 + (i - 3) = i by omega] at this
  · intro h j
    rw [List.drop_drop]
    exact h (3 + j) (by omega)

/-! ## Claim C3: fallback behavior of `parseFrontmatter` -/

/-- Claim C3: for every input string, if the trimmed text does not begin with
the `---` header delimiter, `parseFrontmatter` returns empty metadata and the
full trimmed text as body; and if it does begin with the delimiter but no
closing `---` occurs at any index `≥ 3`, the same fallback applies — the whole
trimmed text, opening delimiter included, is the body and the metadata is
empty. Both are ordinary return paths: the total function `parseFrontmatter`
raises no error. -/
theorem parseFrontmatter_fallback (s : String) :
    (listStartsWith ("---".data) (jsTrim s).data = false →
      parseFrontmatter s = { metadata := [], content := jsTrim s })
  ∧ (listStartsWith ("---".data) (jsTrim s).data = true →
      (∀ i, 3 ≤ i → listStartsWith ("---".data) ((jsTrim s).data.drop i) = false) →
      parseFrontmatter s = { metadata := [], content := jsTrim s }) := by
  constructor
  · intro h
    simp [parseFrontmatter, h]
  · intro h1 h2
    have hnone : indexOfFrom (jsTrim s).data ("---".data) 3 = none :=
      (indexOfFrom_none_iff _).mpr h2
    simp [parseFrontmatter, h1, hnone]

/-- Witness for C3 at two concrete inputs: a text with no header delimiter, and
a text whose header block is never closed. -/
theorem parseFrontmatter_fallback_witness :
    parseFrontmatter "plain body" = { metadata := [], content := "plain body" }
  ∧ parseFrontmatter "---\nkey: open" = { metadata := [], content := "---\nkey: open" } := by
  constructor
  · have h := (parseFrontmatter_fallback "plain body").1 (by decide)
    rwa [show jsTrim "plain body" = "plain body" from by decide] at h
  · have h := (parseFrontmatter_fallback "---\nkey: open").2 (by decide)
      ((indexOfFrom_none_iff _).mp (by decide))
    rwa [show jsTrim "---\nkey: open" = "---\nkey: open" from by decide] at h

/-! ## Lemmas about `matchFloatParts` (the `/^\d+\.\d+$/` regex) -/

/-- The float regex matches a digit run, a dot, and a digit run. -/
theorem matchFloatParts_eq_some (d1 d2 : List Char) (h1 : d1 ≠ []) (h2 : d2 ≠ [])
    (hd1 : d1.all Char.isDigit = true) (hd2 : d2.all Char.isDigit = true) :
    matchFloatParts (d1 ++ '.' :: d2) = some (d1, d2) := by
  have hdw1 : d1.dropWhile Char.isDigit = [] :=
    List.dropWhile_eq_nil_iff.mpr (fun x hx => List.all_eq_true.mp hd1 x hx)
  have htw1 : d1.takeWhile Char.isDigit = d1 :=
    List.takeWhile_eq_self_iff.mpr (fun x hx => List.all_eq_true.mp hd1 x hx)
  have hdw : (d1 ++ '.' :: d2).dropWhile Char.isDigit = '.' :: d2 := by
    rw [List.dropWhile_append, hdw1]
    simp [List.dropWhile_cons]
  have htw : (d1 ++ '.' :: d2).takeWhile Char.isDigit = d1 := by
    rw [List.takeWhile_append, htw1]
    simp [List.takeWhile_cons]
  simp only [matchFloatParts]
  rw [htw, hdw]
  rw [if_pos ⟨h1, rfl, h2, hd2⟩]
  rfl

/-- A successful float-regex match is exactly a digit-dot-digit decomposition. -/
theorem matchFloatParts_sound (l d1 d2 : List Char)
    (h : matchFloatParts l = some (d1, d2)) :
    l = d1 ++ '.' :: d2 ∧ d1 ≠ [] ∧ d2 ≠ [] ∧
      d1.all Char.isDigit = true ∧ d2.all Char.isDigit = true := by
  simp only [matchFloatParts] at h
  by_cases hc : l.takeWhile Char.isDigit ≠ [] ∧ (l.dropWhile Char.isDigit).head? = some '.' ∧
      (l.dropWhile Char.isDigit).tail ≠ [] ∧ (l.dropWhile Char.isDigit).tail.all Char.isDigit = true
  · rw [if_pos hc] at h
    obtain ⟨htw, hhead, htail, hall⟩ := hc
    have hd1 : d1 = l.takeWhile Char.isDigit := by cases h; rfl
    have hd2 : d2 = (l.dropWhile Char.isDigit).tail := by cases h; rfl
    subst hd1; subst hd2
    have hdw : l.dropWhile Char.isDigit = '.' :: (l.dropWhile Char.isDigit).tail := by
      cases hdw0 : l.dropWhile Char.isDigit with
      | nil => rw [hdw0] at hhead; cases hhead
      | cons c rest =>
        rw [hdw0] at hhead
        cases hhead
        rfl
    refine ⟨?_, htw, htail, ?_, hall⟩
    · conv_lhs => rw [← List.takeWhile_append_dropWhile Char.isDigit l, hdw]
    · exact List.all_eq_true.mpr (fun x hx => List.mem_takeWhile_imp hx)
  · rw [if_neg hc] at h; cases h

/-- The float regex fails exactly when no digit-dot-digit decomposition exists. -/
theorem matchFloatParts_none_iff (l : List Char) :
    matchFloatParts l = none ↔
      ¬ ∃ d1 d2, l = d1 ++ '.' :: d2 ∧ d1 ≠ [] ∧ d2 ≠ [] ∧
        d1.all Char.isDigit = true ∧ d2.all Char.isDigit = true := by
  constructor
  · rintro hnone ⟨d1, d2, rfl, h1, h2, hd1, hd2⟩
    rw [matchFloatParts_eq_some d1 d2 h1 h2 hd1 hd2] at hnone
    cases hnone
  · intro hne
    cases hm : matchFloatParts l with
    | none => rfl
    | some p =>
      obtain ⟨heq, h1, h2, hd1, hd2⟩ := matchFloatParts_sound l p.1 p.2 (by rw [hm])
      exact absurd ⟨p.1, p.2, heq, h1, h2, hd1, hd2⟩ hne

/-- The float regex fails on any list whose head is not a digit (the leading
`\d+` is then empty). -/
theorem matchFloatParts_cons_none (c : Char) (rest : List Char)
    (hc : c.isDigit = false) : matchFloatParts (c :: rest) = none := by
  simp only [matchFloatParts]
  rw [List.takeWhile_cons, if_neg (by simp [hc])]

/-- Claim C8 (amended): for every raw scalar string, `"true"`/`"false"` become
the booleans, an all-digit string becomes the integer it denotes, a
digit-dot-digit string becomes the decimal number it denotes, a string of
length at least two that begins and ends with the same quote character becomes
the inner string with both quotes removed, the one-character strings `"` and
`'` become the empty string (their single character is both the leading and the
trailing quote of the `startsWith`/`endsWith` test, and `slice(1, -1)` is
empty), and any string hitting none of these forms passes through verbatim.
The fifth conjunct ties the embedded float-regex test to the digit-dot-digit
decomposition used in the claim's wording. -/
theorem parseScalarValue_spec (raw : String) :
    (raw = "true" → parseScalarValue raw = MetaValue.bool true)
  ∧ (raw = "false" → parseScalarValue raw = MetaValue.bool false)
  ∧ (raw.data ≠ [] → raw.data.all Char.isDigit = true →
      parseScalarValue raw = MetaValue.num (natOfDigits raw.data) 0)
  ∧ (∀ d1 d2, raw.data = d1 ++ '.' :: d2 → d1 ≠ [] → d2 ≠ [] →
      d1.all Char.isDigit = true → d2.all Char.isDigit = true →
      parseScalarValue raw = decimalOfParts d1 d2)
  ∧ (matchFloatParts raw.data = none ↔
      ¬ ∃ d1 d2, raw.data = d1 ++ '.' :: d2 ∧ d1 ≠ [] ∧ d2 ≠ [] ∧
        d1.all Char.isDigit = true ∧ d2.all Char.isDigit = true)
  ∧ (SpecQuoted raw → parseScalarValue raw = MetaValue.str (String.mk (raw.data.drop 1).dropLast))
  ∧ ((raw = "\"" ∨ raw = "'") → parseScalarValue raw = MetaValue.str "")
  ∧ (SpecVerbatim raw → parseScalarValue raw = MetaValue.str raw) := by
  refine ⟨?_, ?_, ?_, ?_, matchFloatParts_none_iff raw.data, ?_, ?_, ?_⟩
  · rintro rfl; decide
  · rintro rfl; decide
  · intro h1 h2
    have ht : raw ≠ "true" := by rintro rfl; exact absurd h2 (by decide)
    have hf : raw ≠ "false" := by rintro rfl; exact absurd h2 (by decide)
    have hAll : isAllDigits raw.data = true := by
      unfold isAllDigits
      rw [h2, Bool.and_true, decide_eq_true_eq]
      exact h1
    rw [parseScalarValue, if_neg ht, if_neg hf, if_pos hAll]
  · intro d1 d2 heq h1 h2 hd1 hd2
    have hdot : '.' ∈ raw.data := by
      rw [heq]; exact List.mem_append_right _ (List.mem_cons_self _ _)
    have ht : raw ≠ "true" := by rintro rfl; exact absurd hdot (by decide)
    have hf : raw ≠ "false" := by rintro rfl; exact absurd hdot (by decide)
    have hAllF : ¬ isAllDigits raw.data = true := by
      intro hA
      unfold isAllDigits at hA
      rw [Bool.and_eq_true] at hA
      exact absurd (List.all_eq_true.mp hA.2 '.' hdot) (by decide)
    have hm : matchFloatParts raw.data = some (d1, d2) := by
      rw [heq]; exact matchFloatParts_eq_some d1 d2 h1 h2 hd1 hd2
    rw [parseScalarValue, if_neg ht, if_neg hf, if_neg hAllF, hm]
  · rintro ⟨hlen, hq⟩
    have hcons : ∃ c rest, raw.data = c :: rest ∧ raw.data.head? = some c := by
      cases hd : raw.data with
      | nil => rw [hd] at hlen; cases hlen
      | cons c rest => exact ⟨c, rest, rfl, rfl⟩
    obtain ⟨c, rest, hdata, hhead⟩ := hcons
    have hcq : c = '"' ∨ c = '\'' := by
      rcases hq with ⟨hh, -⟩ | ⟨hh, -⟩
      · left; rw [hhead] at hh; cases hh; rfl
      · right; rw [hhead] at hh; cases hh; rfl
    have hcd : c.isDigit = false := by rcases hcq with rfl | rfl <;> decide
    have ht : raw ≠ "true" := by
      rintro rfl
      rcases hcq with rfl | rfl <;> simp at hdata
    have hf : raw ≠ "false" := by
      rintro rfl
      rcases hcq with rfl | rfl <;> simp at hdata
    have hAllF : ¬ isAllDigits raw.data = true := by
      intro hA
      unfold isAllDigits at hA
      rw [Bool.and_eq_true] at hA
      have := List.all_eq_true.mp hA.2 c (by rw [hdata]; exact List.mem_cons_self _ _)
      rw [hcd] at this; cases this
    have hm : matchFloatParts raw.data = none := by
      rw [hdata]; exact matchFloatParts_cons_none c rest hcd
    have hcode :
        ((listStartsWith ['"'] raw.data && listStartsWith ['"'] raw.data.reverse)
          || (listStartsWith ['\''] raw.data && listStartsWith ['\''] raw.data.reverse)) = true := by
      rw [Bool.or_eq_true, Bool.and_eq_true, Bool.and_eq_true]
      rcases hq with ⟨hh, hl⟩ | ⟨hh, hl⟩
      · exact Or.inl ⟨(listStartsWith_single_iff _ _).mpr hh,
          (listStartsWith_single_iff _ _).mpr (by rw [List.head?_reverse]; exact hl)⟩
      · exact Or.inr ⟨(listStartsWith_single_iff _ _).mpr hh,
          (listStartsWith_single_iff _ _).mpr (by rw [List.head?_reverse]; exact hl)⟩
    rw [parseScalarValue, if_neg ht, if_neg hf, if_neg hAllF, hm, if_pos hcode]
    have harg : raw.data.length - 1 - 1 = raw.data.length - 2 := by omega
    rw [List.dropLast_eq_take, List.length_drop, harg]
  · rintro (rfl | rfl) <;> decide
  · rintro ⟨ht, hf, hnd, hmf, hq⟩
    have hAllF : ¬ isAllDigits raw.data = true := by
      intro hA
      unfold isAllDigits at hA
      rw [Bool.and_eq_true, decide_eq_true_eq] at hA
      exact hnd hA
    have hcodeF :
        ¬ ((listStartsWith ['"'] raw.data && listStartsWith ['"'] raw.data.reverse)
          || (listStartsWith ['\''] raw.data && listStartsWith ['\''] raw.data.reverse)) = true := by
      intro hor
      rw [Bool.or_eq_true, Bool.and_eq_true, Bool.and_eq_true] at hor
      rcases hor with ⟨ha, hb⟩ | ⟨ha, hb⟩
      · refine hq (Or.inl ⟨(listStartsWith_single_iff _ _).mp ha, ?_⟩)
        rw [← List.head?_reverse]
        exact (listStartsWith_single_iff _ _).mp hb
      · refine hq (Or.inr ⟨(listStartsWith_single_iff _ _).mp ha, ?_⟩)
        rw [← List.head?_reverse]
        exact (listStartsWith_single_iff _ _).mp hb
    rw [parseScalarValue, if_neg ht, if_neg hf, if_neg hAllF, hmf, if_neg hcodeF]

/-- Counterexample to C8 as stated: the one-character input `"` is not enclosed
in matching quotes (it is too short for that), yet it is not passed through
verbatim — the code's `startsWith`/`endsWith` test fires on the single
character and `slice(1, -1)` yields the empty string. -/
theorem parseScalarValue_lone_quote_counterexample :
    parseScalarValue "\"" = MetaValue.str ""
  ∧ ("\"" : String).data.length = 1
  ∧ MetaValue.str "" ≠ MetaValue.str "\"" := by
  decide

/-- Witness for C8 (amended theorem) at concrete inputs of every form. -/
theorem parseScalarValue_spec_witness :
    parseScalarValue "true" = MetaValue.bool true
  ∧ parseScalarValue "false" = MetaValue.bool false
  ∧ parseScalarValue "007" = MetaValue.num 7 0
  ∧ parseScalarValue "2.5" = MetaValue.num 25 1
  ∧ parseScalarValue "\"hi\"" = MetaValue.str "hi"
  ∧ parseScalarValue "'" = MetaValue.str ""
  ∧ parseScalarValue "plain text" = MetaValue.str "plain text" := by
  refine ⟨(parseScalarValue_spec "true").1 rfl,
          (parseScalarValue_spec "false").2.1 rfl,
          (parseScalarValue_spec "007").2.2.1 (by decide) (by decide),
          ?_, ?_,
          (parseScalarValue_spec "'").2.2.2.2.2.2.1 (Or.inr rfl),
          (parseScalarValue_spec "plain text").2.2.2.2.2.2.2
            ⟨by decide, by decide, by decide, by decide, by decide⟩⟩
  · have h := (parseScalarValue_spec "2.5").2.2.2.1 ['2'] ['5']
      (by decide) (by decide) (by decide) (by decide) (by decide)
    rw [h]; decide
  · have h := (parseScalarValue_spec "\"hi\"").2.2.2.2.2.1
      ⟨by decide, Or.inl ⟨by decide, by decide⟩⟩
    rw [h]; decide

/-! ## Lemmas about the loader -/

/-- The item callback on a path whose fetch rejects. -/
theorem loadFragmentItem_reject (fetch : String → FetchOutcome) (dir p : String)
    (h : fetch (dir ++ "/" ++ p) = FetchOutcome.reject) :
    loadFragmentItem fetch dir p = Except.error () := by
  rw [loadFragmentItem, h]

/-- The item callback on a path whose fetch resolves non-ok. -/
theorem loadFragmentItem_httpError (fetch : String → FetchOutcome) (dir p : String)
    (h : fetch (dir ++ "/" ++ p) = FetchOutcome.httpError) :
    loadFragmentItem fetch dir p = Except.ok none := by
  rw [loadFragmentItem, h]

/-- The item callback on a path whose fetch resolves ok. -/
theorem loadFragmentItem_ok (fetch : String → FetchOutcome) (dir p text : String)
    (h : fetch (dir ++ "/" ++ p) = FetchOutcome.ok text) :
    loadFragmentItem fetch dir p = Except.ok (some (mkFragment p text)) := by
  rw [loadFragmentItem, h]

/-- The resolved value on a path whose fetch resolves non-ok. -/
theorem resolvedItem_httpError (fetch : String → FetchOutcome) (dir p : String)
    (h : fetch (dir ++ "/" ++ p) = FetchOutcome.httpError) :
    resolvedItem fetch dir p = none := by
  rw [resolvedItem, h]

/-- The resolved value on a path whose fetch resolves ok. -/
theorem resolvedItem_ok (fetch : String → FetchOutcome) (dir p text : String)
    (h : fetch (dir ++ "/" ++ p) = FetchOutcome.ok text) :
    resolvedItem fetch dir p = some (mkFragment p text) := by
  rw [resolvedItem, h]

/-- Any path whose fetch resolves ok contributes its parsed fragment to the
kept items of the batch. -/
theorem mem_keptFragments (fetch : String → FetchOutcome) (dir : String)
    (paths : List String) (p : String) (text : String) (hp : p ∈ paths)
    (hf : fetch (dir ++ "/" ++ p) = FetchOutcome.ok text) :
    mkFragment p text ∈ keptFragments fetch dir paths := by
  rw [keptFragments, List.mem_filterMap]
  exact ⟨p, hp, resolvedItem_ok fetch dir p text hf⟩

/-- When no listed path's fetch rejects, the `Promise.all` over the item
callbacks resolves to the per-path resolved values in order. -/
theorem promiseAll_items_ok (fetch : String → FetchOutcome) (dir : String) :
    ∀ (paths : List String),
    (∀ p ∈ paths, fetch (dir ++ "/" ++ p) ≠ FetchOutcome.reject) →
    promiseAll (paths.map (fun fragmentPath => loadFragmentItem fetch dir fragmentPath)) =
      Except.ok (paths.map (fun fragmentPath => resolvedItem fetch dir fragmentPath)) := by
  intro paths
  induction paths with
  | nil => intro _; rfl
  | cons p rest ih =>
    intro h
    have hp := h p (List.mem_cons_self _ _)
    have ihr := ih (fun q hq => h q (List.mem_cons_of_mem _ hq))
    simp only [List.map_cons]
    cases hf : fetch (dir ++ "/" ++ p) with
    | reject => exact absurd hf hp
    | httpError =>
      rw [loadFragmentItem_httpError fetch dir p hf, resolvedItem_httpError fetch dir p hf,
        promiseAll, ihr]
    | ok text =>
      rw [loadFragmentItem_ok fetch dir p text hf, resolvedItem_ok fetch dir p text hf,
        promiseAll, ihr]

/-- When some listed path's fetch rejects, the `Promise.all` over the item
callbacks rejects. -/
theorem promiseAll_items_reject (fetch : String → FetchOutcome) (dir : String) :
    ∀ (paths : List String),
    (∃ p ∈ paths, fetch (dir ++ "/" ++ p) = FetchOutcome.reject) →
    promiseAll (paths.map (fun fragmentPath => loadFragmentItem fetch dir fragmentPath)) =
      Except.error () := by
  intro paths
  induction paths with
  | nil =>
    rintro ⟨p, hp, _⟩
    cases hp
  | cons p rest ih =>
    rintro ⟨q, hq, hfq⟩
    simp only [List.map_cons]
    rcases List.mem_cons.mp hq with rfl | hq2
    · rw [loadFragmentItem_reject fetch dir q hfq, promiseAll]
    · cases hf : fetch (dir ++ "/" ++ p) with
      | reject => rw [loadFragmentItem_reject fetch dir p hf, promiseAll]
      | httpError =>
        rw [loadFragmentItem_httpError fetch dir p hf, promiseAll, ih ⟨q, hq2, hfq⟩]
      | ok text =>
        rw [loadFragmentItem_ok fetch dir p text hf, promiseAll, ih ⟨q, hq2, hfq⟩]

/-- Dropping the `null` items of a resolved batch keeps exactly the
ok-fetched fragments in order. -/
theorem filterMap_id_items (fetch : String → FetchOutcome) (dir : String)
    (paths : List String) :
    (paths.map (fun fragmentPath => resolvedItem fetch dir fragmentPath)).filterMap id =
      keptFragments fetch dir paths := by
  rw [keptFragments, List.filterMap_map]
  rfl

/-- `loadFragments` on a known technology with no rejecting fetch: the call
resolves ok to exactly the ok-fetched fragments, the non-ok items dropped. -/
theorem loadFragments_ok (fetch : String → FetchOutcome) (manifest : Manifest)
    (technologyId : String) (tech : Technology)
    (hfind : manifest.technologies.find? (fun t => t.id == technologyId) = some tech)
    (hnr : ∀ p ∈ tech.fragments,
      fetch (fragmentsDirUrl technologyId ++ "/" ++ p) ≠ FetchOutcome.reject) :
    loadFragments fetch manifest technologyId =
      Except.ok (keptFragments fetch (fragmentsDirUrl technologyId) tech.fragments) := by
  simp only [loadFragments, hfind, promiseAll_items_ok fetch _ tech.fragments hnr,
    filterMap_id_items]

/-- `loadFragments` on a known technology with a rejecting fetch of one listed
file: the whole call rejects. -/
theorem loadFragments_reject (fetch : String → FetchOutcome) (manifest : Manifest)
    (technologyId : String) (tech : Technology)
    (hfind : manifest.technologies.find? (fun t => t.id == technologyId) = some tech)
    (hr : ∃ p ∈ tech.fragments,
      fetch (fragmentsDirUrl technologyId ++ "/" ++ p) = FetchOutcome.reject) :
    loadFragments fetch manifest technologyId = Except.error LoadError.rejected := by
  simp only [loadFragments, hfind, promiseAll_items_reject fetch _ tech.fragments hr]

/-- A combination batch with no rejecting fetch resolves to its kept items. -/
theorem loadComboItems_ok (fetch : String → FetchOutcome) (combo : Combination)
    (hnr : ∀ p ∈ combo.fragments,
      fetch (comboDirUrl combo.id ++ "/" ++ p) ≠ FetchOutcome.reject) :
    loadComboItems fetch combo =
      Except.ok (keptFragments fetch (comboDirUrl combo.id) combo.fragments) := by
  simp only [loadComboItems, promiseAll_items_ok fetch _ combo.fragments hnr,
    filterMap_id_items]

/-- A combination batch with a rejecting fetch rejects. -/
theorem loadComboItems_reject (fetch : String → FetchOutcome) (combo : Combination)
    (hr : ∃ p ∈ combo.fragments,
      fetch (comboDirUrl combo.id ++ "/" ++ p) = FetchOutcome.reject) :
    loadComboItems fetch combo = Except.error () := by
  simp only [loadComboItems, promiseAll_items_reject fetch _ combo.fragments hr]

/-- When no matching combination's file rejects, the combination loop resolves
ok to the concatenated kept items of the matching combinations in order. -/
theorem loadCombinationsLoop_ok (fetch : String → FetchOutcome)
    (techIds : List String) : ∀ (combos : List Combination),
    (∀ c ∈ combos, comboMatches c techIds = true →
      ∀ p ∈ c.fragments, fetch (comboDirUrl c.id ++ "/" ++ p) ≠ FetchOutcome.reject) →
    loadCombinationsLoop fetch techIds combos =
      Except.ok ((combos.filter (fun c => comboMatches c techIds)).flatMap
        (fun c => keptFragments fetch (comboDirUrl c.id) c.fragments)) := by
  intro combos
  induction combos with
  | nil => intro _; rfl
  | cons combo rest ih =>
    intro h
    have ihr := ih (fun c hc => h c (List.mem_cons_of_mem _ hc))
    rw [List.filter_cons]
    by_cases hb : comboMatches combo techIds = true
    · rw [if_pos hb, loadCombinationsLoop, if_pos hb,
        loadComboItems_ok fetch combo (h combo (List.mem_cons_self _ _) hb), ihr,
        List.flatMap_cons]
    · rw [if_neg hb, loadCombinationsLoop, if_neg hb, ihr]

/-- When some matching combination has a rejecting file, the combination loop
rejects the whole call. -/
theorem loadCombinationsLoop_reject (fetch : String → FetchOutcome)
    (techIds : List String) : ∀ (combos : List Combination),
    (∃ c ∈ combos, comboMatches c techIds = true ∧
      ∃ p ∈ c.fragments, fetch (comboDirUrl c.id ++ "/" ++ p) = FetchOutcome.reject) →
    loadCombinationsLoop fetch techIds combos = Except.error LoadError.rejected := by
  intro combos
  induction combos with
  | nil =>
    rintro ⟨c, hc, _, _⟩
    cases hc
  | cons combo rest ih =>
    rintro ⟨c, hc, hcm, hrej⟩
    rcases List.mem_cons.mp hc with rfl | hc2
    · rw [loadCombinationsLoop, if_pos hcm, loadComboItems_reject fetch c hrej]
    · by_cases hb : comboMatches combo techIds = true
      · rw [loadCombinationsLoop, if_pos hb, ih ⟨c, hc2, hcm, hrej⟩]
        cases hi : loadComboItems fetch combo with
        | error u => rfl
        | ok frags => rfl
      · rw [loadCombinationsLoop, if_neg hb]
        exact ih ⟨c, hc2, hcm, hrej⟩

/-- The combination loop skips the non-matching combinations: it equals the
loop over the matching ones only. -/
theorem loadCombinationsLoop_filter (fetch : String → FetchOutcome)
    (techIds : List String) : ∀ (combos : List Combination),
    loadCombinationsLoop fetch techIds combos =
      loadCombinationsLoop fetch techIds
        (combos.filter (fun c => comboMatches c techIds)) := by
  intro combos
  induction combos with
  | nil => rfl
  | cons combo rest ih =>
    rw [List.filter_cons]
    by_cases hb : comboMatches combo techIds = true
    · rw [if_pos hb, loadCombinationsLoop, loadCombinationsLoop, if_pos hb, if_pos hb, ih]
    · rw [if_neg hb, loadCombinationsLoop, if_neg hb, ih]

/-- Membership is invariant under `insertSorted`. -/
theorem mem_insertSorted (x y : String) (l : List String) :
    x ∈ insertSorted y l ↔ x = y ∨ x ∈ l := by
  induction l with
  | nil => simp [insertSorted]
  | cons z zs ih =>
    rw [insertSorted]
    by_cases h : jsStringLt y.data z.data = true
    · rw [if_pos h]; simp
    · rw [if_neg h]
      simp only [List.mem_cons, ih]
      tauto

/-- Membership is invariant under the sort model (`[...ids].sort()`). -/
theorem mem_sortStrings (x : String) (l : List String) :
    x ∈ sortStrings l ↔ x ∈ l := by
  induction l with
  | nil => simp [sortStrings]
  | cons y ys ih =>
    show x ∈ insertSorted y (sortStrings ys) ↔ _
    rw [mem_insertSorted, ih]
    simp

/-- The combination match test is the subset test on member ids. -/
theorem comboMatches_iff (combo : Combination) (techIds : List String) :
    comboMatches combo techIds = true ↔ ∀ t ∈ combo.technologies, t ∈ techIds := by
  simp only [comboMatches, List.all_eq_true]
  constructor
  · intro h t ht
    have := h t ((mem_sortStrings t _).mpr ht)
    exact (mem_sortStrings t _).mp (List.elem_iff.mp this)
  · intro h t ht
    exact List.elem_iff.mpr ((mem_sortStrings t _).mpr (h t ((mem_sortStrings t _).mp ht)))

/-! ## Claim C2: fault tolerance of the loader, per failure kind -/

/-- Counterexample to claim C2 as stated: with a component (and likewise a
matching combination) listing two fragment files, a fetch whose promise
rejects on exactly one of them — the per-item callback catches only a resolved
non-ok response, not a rejection — rejects the whole `loadFragments`
(respectively `loadCombinationFragments`) call through `Promise.all`, instead
of dropping that one item and returning the other file's fragment. -/
theorem loader_rejection_counterexample :
    loadFragments
        (fun u => if u = fragmentsDirUrl "t" ++ "/a.md" then FetchOutcome.reject
          else FetchOutcome.ok "B")
        ⟨[⟨"t", ["a.md", "b.md"]⟩], []⟩ "t" = Except.error LoadError.rejected
  ∧ loadCombinationFragments
        (fun u => if u = comboDirUrl "c" ++ "/x.md" then FetchOutcome.reject
          else FetchOutcome.ok "Y")
        ⟨[], [⟨"c", ["A", "B"], ["x.md", "y.md"]⟩]⟩ ["A", "B"] =
      Except.error LoadError.rejected := by
  constructor
  · decide
  · decide

/-- Claim C2 (amended): for a component present in the manifest, when every
listed file's fetch resolves (no promise rejection), `loadFragments` returns
`ok` with exactly the parsed fragments of the ok responses in order — a
non-ok (HTTP-error) response for any one file only drops that one item, never
aborting the batch — and every ok-fetched file's fragment is present; but a
fetch rejection of any one listed file rejects the whole call. The same holds
for `loadCombinationFragments` over the matching combinations. -/
theorem loader_partial_failure_tolerance :
    (∀ (fetch : String → FetchOutcome) (manifest : Manifest) (technologyId : String)
        (tech : Technology),
      manifest.technologies.find? (fun t => t.id == technologyId) = some tech →
      (∀ p ∈ tech.fragments,
        fetch (fragmentsDirUrl technologyId ++ "/" ++ p) ≠ FetchOutcome.reject) →
      loadFragments fetch manifest technologyId =
        Except.ok (keptFragments fetch (fragmentsDirUrl technologyId) tech.fragments))
  ∧ (∀ (fetch : String → FetchOutcome) (manifest : Manifest) (technologyId : String)
        (tech : Technology),
      manifest.technologies.find? (fun t => t.id == technologyId) = some tech →
      (∃ p ∈ tech.fragments,
        fetch (fragmentsDirUrl technologyId ++ "/" ++ p) = FetchOutcome.reject) →
      loadFragments fetch manifest technologyId = Except.error LoadError.rejected)
  ∧ (∀ (fetch : String → FetchOutcome) (manifest : Manifest) (techIds : List String),
      (∀ c ∈ manifest.combinations, comboMatches c techIds = true →
        ∀ p ∈ c.fragments, fetch (comboDirUrl c.id ++ "/" ++ p) ≠ FetchOutcome.reject) →
      loadCombinationFragments fetch manifest techIds =
        Except.ok ((manifest.combinations.filter (fun c => comboMatches c techIds)).flatMap
          (fun c => keptFragments fetch (comboDirUrl c.id) c.fragments)))
  ∧ (∀ (fetch : String → FetchOutcome) (manifest : Manifest) (techIds : List String),
      (∃ c ∈ manifest.combinations, comboMatches c techIds = true ∧
        ∃ p ∈ c.fragments, fetch (comboDirUrl c.id ++ "/" ++ p) = FetchOutcome.reject) →
      loadCombinationFragments fetch manifest techIds = Except.error LoadError.rejected)
  ∧ (∀ (fetch : String → FetchOutcome) (dir : String) (paths : List String)
        (p text : String), p ∈ paths →
      fetch (dir ++ "/" ++ p) = FetchOutcome.ok text →
      mkFragment p text ∈ keptFragments fetch dir paths) := by
  refine ⟨loadFragments_ok, loadFragments_reject, ?_, ?_, mem_keptFragments⟩
  · intro fetch manifest techIds h
    rw [loadCombinationFragments]
    exact loadCombinationsLoop_ok fetch techIds manifest.combinations h
  · intro fetch manifest techIds h
    rw [loadCombinationFragments]
    exact loadCombinationsLoop_reject fetch techIds manifest.combinations h

/-- Witness for C2 (amended): a two-fragment component whose first file gets
an HTTP error — the call still resolves ok and the surviving item is present —
the rejection counterparts at one rejecting file, and the same pair for a
matching combination. -/
theorem loader_partial_failure_tolerance_witness :
    loadFragments
        (fun u => if u = fragmentsDirUrl "t" ++ "/" ++ "a.md" then FetchOutcome.httpError
          else FetchOutcome.ok "B")
        ⟨[⟨"t", ["a.md", "b.md"]⟩], []⟩ "t" =
      Except.ok (keptFragments
        (fun u => if u = fragmentsDirUrl "t" ++ "/" ++ "a.md" then FetchOutcome.httpError
          else FetchOutcome.ok "B")
        (fragmentsDirUrl "t") ["a.md", "b.md"])
  ∧ loadFragments
        (fun u => if u = fragmentsDirUrl "t" ++ "/" ++ "a.md" then FetchOutcome.reject
          else FetchOutcome.ok "B")
        ⟨[⟨"t", ["a.md", "b.md"]⟩], []⟩ "t" = Except.error LoadError.rejected
  ∧ loadCombinationFragments
        (fun u => if u = comboDirUrl "c" ++ "/" ++ "x.md" then FetchOutcome.httpError
          else FetchOutcome.ok "Y")
        ⟨[], [⟨"c", ["A", "B"], ["x.md", "y.md"]⟩]⟩ ["A", "B"] =
      Except.ok ((([⟨"c", ["A", "B"], ["x.md", "y.md"]⟩] : List Combination).filter
          (fun c => comboMatches c ["A", "B"])).flatMap
        (fun c => keptFragments
          (fun u => if u = comboDirUrl "c" ++ "/" ++ "x.md" then FetchOutcome.httpError
            else FetchOutcome.ok "Y")
          (comboDirUrl c.id) c.fragments))
  ∧ loadCombinationFragments
        (fun u => if u = comboDirUrl "c" ++ "/" ++ "x.md" then FetchOutcome.reject
          else FetchOutcome.ok "Y")
        ⟨[], [⟨"c", ["A", "B"], ["x.md", "y.md"]⟩]⟩ ["A", "B"] =
      Except.error LoadError.rejected
  ∧ mkFragment "b.md" "B" ∈ keptFragments
      (fun u => if u = fragmentsDirUrl "t" ++ "/" ++ "a.md" then FetchOutcome.httpError
        else FetchOutcome.ok "B")
      (fragmentsDirUrl "t") ["a.md", "b.md"] := by
  refine ⟨?_, ?_, ?_, ?_, ?_⟩
  · exact loader_partial_failure_tolerance.1
      (fun u => if u = fragmentsDirUrl "t" ++ "/" ++ "a.md" then FetchOutcome.httpError
        else FetchOutcome.ok "B")
      ⟨[⟨"t", ["a.md", "b.md"]⟩], []⟩ "t" ⟨"t", ["a.md", "b.md"]⟩ (by decide) (by decide)
  · exact loader_partial_failure_tolerance.2.1
      (fun u => if u = fragmentsDirUrl "t" ++ "/" ++ "a.md" then FetchOutcome.reject
        else FetchOutcome.ok "B")
      ⟨[⟨"t", ["a.md", "b.md"]⟩], []⟩ "t" ⟨"t", ["a.md", "b.md"]⟩ (by decide) (by decide)
  · exact loader_partial_failure_tolerance.2.2.1
      (fun u => if u = comboDirUrl "c" ++ "/" ++ "x.md" then FetchOutcome.httpError
        else FetchOutcome.ok "Y")
      ⟨[], [⟨"c", ["A", "B"], ["x.md", "y.md"]⟩]⟩ ["A", "B"] (by decide)
  · exact loader_partial_failure_tolerance.2.2.2.1
      (fun u => if u = comboDirUrl "c" ++ "/" ++ "x.md" then FetchOutcome.reject
        else FetchOutcome.ok "Y")
      ⟨[], [⟨"c", ["A", "B"], ["x.md", "y.md"]⟩]⟩ ["A", "B"] (by decide)
  · exact loader_partial_failure_tolerance.2.2.2.2
      (fun u => if u = fragmentsDirUrl "t" ++ "/" ++ "a.md" then FetchOutcome.httpError
        else FetchOutcome.ok "B")
      (fragmentsDirUrl "t") ["a.md", "b.md"] "b.md" "B" (by decide) (by decide)

/-! ## Claim C5: combination activation is a monotonic subset test -/

/-- Claim C5: a combination's fragments are loaded exactly when every member
technology id is contained in the selection (a subset test, not exact-set
equality): the match test is equivalent to the subset condition, it is
monotonic (a superset selection keeps every match), removing a member id from
the selection makes the combination ineligible again, and
`loadCombinationFragments` loads precisely the matching combinations: its loop
equals the loop over the matching combinations only, in combination order. -/
theorem combination_subset_monotonic (combo : Combination) (s t : List String) :
    (comboMatches combo s = true ↔ ∀ m ∈ combo.technologies, m ∈ s)
  ∧ (s ⊆ t → comboMatches combo s = true → comboMatches combo t = true)
  ∧ (∀ m ∈ combo.technologies, comboMatches combo (s.filter (fun x => !(x == m))) = false)
  ∧ (∀ (fetch : String → FetchOutcome) (manifest : Manifest),
      loadCombinationFragments fetch manifest s =
        loadCombinationsLoop fetch s
          (manifest.combinations.filter (fun c => comboMatches c s))) := by
  refine ⟨comboMatches_iff combo s, ?_, ?_, ?_⟩
  · intro hsub hs
    exact (comboMatches_iff combo t).mpr
      (fun m hm => hsub ((comboMatches_iff combo s).mp hs m hm))
  · intro m hm
    cases hb : comboMatches combo (s.filter (fun x => !(x == m))) with
    | false => rfl
    | true =>
      exfalso
      have hmem := (comboMatches_iff combo _).mp hb m hm
      have := (List.mem_filter.mp hmem).2
      simp at this
  · intro fetch manifest
    rw [loadCombinationFragments]
    exact loadCombinationsLoop_filter fetch s manifest.combinations

/-- Witness for C5 at a concrete combination over `{A, B}`: selection `{A, B}`
matches, the superset `{A, B, C}` still matches, removing the member `A` makes
it ineligible, and the load of a one-combination manifest equals the loop over
the matching combinations. -/
theorem combination_subset_monotonic_witness :
    comboMatches ⟨"c", ["A", "B"], ["x.md"]⟩ ["A", "B"] = true
  ∧ comboMatches ⟨"c", ["A", "B"], ["x.md"]⟩ ["A", "B", "C"] = true
  ∧ comboMatches ⟨"c", ["A", "B"], ["x.md"]⟩ (["A", "B"].filter (fun x => !(x == "A"))) = false
  ∧ loadCombinationFragments (fun _ => FetchOutcome.ok "F")
        ⟨[], [⟨"c", ["A", "B"], ["x.md"]⟩]⟩ ["A", "B"] =
      loadCombinationsLoop (fun _ => FetchOutcome.ok "F") ["A", "B"]
        ((⟨[], [⟨"c", ["A", "B"], ["x.md"]⟩]⟩ : Manifest).combinations.filter
          (fun c => comboMatches c ["A", "B"])) := by
  obtain ⟨h1, h2, h3, h4⟩ :=
    combination_subset_monotonic ⟨"c", ["A", "B"], ["x.md"]⟩ ["A", "B"] ["A", "B", "C"]
  refine ⟨h1.mpr (by decide), ?_, h3 "A" (by decide), h4 (fun _ => FetchOutcome.ok "F") _⟩
  refine h2 ?_ (h1.mpr (by decide))
  intro a ha
  simp only [List.mem_cons, List.not_mem_nil, or_false] at ha
  rcases ha with rfl | rfl <;> decide

/-- The Boolean keep test decides exactly the claim's satisfaction predicate. -/
theorem keepFragment_iff (options : OptionValues) (fragment : PreviewFragment) :
    keepFragment options fragment = true ↔ DepSatisfied options fragment := by
  rw [keepFragment, DepSatisfied]
  cases hdeps : fragment.metadata.optionDependencies with
  | none => simp
  | some deps =>
    rw [List.all_eq_true, Option.getD_some]
    constructor
    · intro h kv hkv
      have hthis := h kv hkv
      cases hv : kv.2 with
      | scalar v =>
        rw [hv] at hthis
        exact beq_iff_eq.mp hthis
      | list l =>
        rw [hv] at hthis
        cases hcv : currentValueOf options fragment kv.1 with
        | none =>
          rw [hcv] at hthis
          exact Bool.noConfusion hthis
        | some cv =>
          rw [hcv] at hthis
          exact ⟨cv, rfl, List.elem_iff.mp hthis⟩
    · intro h kv hkv
      have hthis := h kv hkv
      cases hv : kv.2 with
      | scalar v =>
        rw [hv] at hthis
        exact beq_iff_eq.mpr hthis
      | list l =>
        rw [hv] at hthis
        obtain ⟨cv, hcv, hmem⟩ := hthis
        rw [hcv]
        exact List.elem_iff.mpr hmem

/-- Claim C4: a fragment survives `_filterFragments` exactly when it was in the
input and its dependency predicate is satisfied in the claim's sense; a
fragment with no predicate is always kept; and an absent (never initialized)
option value fails both the scalar and the list form, silently excluding the
fragment. -/
theorem filterFragments_spec (fragments : List PreviewFragment) (options : OptionValues)
    (fragment : PreviewFragment) :
    (fragment ∈ filterFragments fragments options ↔
      fragment ∈ fragments ∧ DepSatisfied options fragment)
  ∧ (fragment.metadata.optionDependencies = none →
      filterFragments [fragment] options = [fragment])
  ∧ (∀ optionId v,
      (optionId, DepVal.scalar v) ∈ (fragment.metadata.optionDependencies).getD [] →
      currentValueOf options fragment optionId = none →
      fragment ∉ filterFragments fragments options)
  ∧ (∀ optionId l,
      (optionId, DepVal.list l) ∈ (fragment.metadata.optionDependencies).getD [] →
      currentValueOf options fragment optionId = none →
      fragment ∉ filterFragments fragments options) := by
  refine ⟨?_, ?_, ?_, ?_⟩
  · rw [filterFragments, List.mem_filter, keepFragment_iff]
  · intro hnone
    rw [filterFragments, List.filter_cons,
      if_pos ((keepFragment_iff options fragment).mpr ?_)]
    · rfl
    · intro kv hkv
      rw [hnone] at hkv
      cases hkv
  · intro optionId v hkv hnone hmem
    rw [filterFragments, List.mem_filter, keepFragment_iff] at hmem
    have := hmem.2 (optionId, DepVal.scalar v) hkv
    rw [hnone] at this
    cases this
  · intro optionId l hkv hnone hmem
    rw [filterFragments, List.mem_filter, keepFragment_iff] at hmem
    obtain ⟨cv, hcv, -⟩ := hmem.2 (optionId, DepVal.list l) hkv
    rw [hnone] at hcv
    cases hcv

/-- Witness for C4: a scalar predicate `{optA: "x"}` keeps its fragment when the
owner's current value is `"x"`; a fragment without predicate is kept under empty
option state; and under never-initialized option values both the scalar and the
list predicate exclude their fragment. -/
theorem filterFragments_spec_witness :
    (⟨"f", "body", ⟨some "T", some [("optA", DepVal.scalar (MetaValue.str "x"))]⟩⟩ :
        PreviewFragment) ∈
      filterFragments [⟨"f", "body", ⟨some "T", some [("optA", DepVal.scalar (MetaValue.str "x"))]⟩⟩]
        [("T", [("optA", MetaValue.str "x")])]
  ∧ filterFragments [(⟨"g", "body", ⟨some "T", none⟩⟩ : PreviewFragment)] [] =
      [⟨"g", "body", ⟨some "T", none⟩⟩]
  ∧ (⟨"f", "body", ⟨some "T", some [("optA", DepVal.scalar (MetaValue.str "x"))]⟩⟩ :
        PreviewFragment) ∉
      filterFragments [⟨"f", "body", ⟨some "T", some [("optA", DepVal.scalar (MetaValue.str "x"))]⟩⟩] []
  ∧ (⟨"h", "body", ⟨some "T", some [("optA", DepVal.list [MetaValue.str "x", MetaValue.str "y"])]⟩⟩ :
        PreviewFragment) ∉
      filterFragments
        [⟨"h", "body", ⟨some "T", some [("optA", DepVal.list [MetaValue.str "x", MetaValue.str "y"])]⟩⟩]
        [] := by
  refine ⟨?_, ?_, ?_, ?_⟩
  · refine ((filterFragments_spec _ _ _).1).mpr ⟨List.mem_singleton.mpr rfl, ?_⟩
    intro kv hkv
    have hkv2 : kv ∈ [("optA", DepVal.scalar (MetaValue.str "x"))] := hkv
    rw [List.mem_singleton] at hkv2
    subst hkv2
    exact rfl
  · exact (filterFragments_spec [⟨"g", "body", ⟨some "T", none⟩⟩] [] _).2.1 rfl
  · exact (filterFragments_spec _ [] _).2.2.1 "optA" (MetaValue.str "x") (by decide) rfl
  · exact (filterFragments_spec _ [] _).2.2.2 "optA" [MetaValue.str "x", MetaValue.str "y"]
      (by decide) rfl

/-! ## Lemmas about the placeholder scan -/

/-- A list with a known head is that head consed on its tail. -/
theorem eq_cons_of_headEq {α : Type} (l : List α) (a : α) (h : l.head? = some a) :
    l = a :: l.tail := by
  cases l with
  | nil => cases h
  | cons x xs =>
    injection h with h2
    subst h2
    rfl

/-- A successful placeholder match decomposes the input as
`{{name}}` followed by the remainder, with a non-empty name free of `}`. -/
theorem matchPlaceholder_eq_some (s name after : List Char)
    (h : matchPlaceholder s = some (name, after)) :
    s = '\x7b' :: '\x7b' :: (name ++ '\x7d' :: '\x7d' :: after) ∧ name ≠ [] ∧ '\x7d' ∉ name := by
  simp only [matchPlaceholder] at h
  by_cases h1 : s.head? = some '\x7b' ∧ s.tail.head? = some '\x7b'
  · rw [if_pos h1] at h
    by_cases h2 : s.tail.tail.takeWhile (fun ch => ch ≠ '\x7d') ≠ [] ∧
        (s.tail.tail.dropWhile (fun ch => ch ≠ '\x7d')).head? = some '\x7d' ∧
        (s.tail.tail.dropWhile (fun ch => ch ≠ '\x7d')).tail.head? = some '\x7d'
    · rw [if_pos h2] at h
      obtain ⟨hne, hh1, hh2⟩ := h2
      have hname : name = s.tail.tail.takeWhile (fun ch => ch ≠ '\x7d') := by cases h; rfl
      have hafter : after = (s.tail.tail.dropWhile (fun ch => ch ≠ '\x7d')).tail.tail := by
        cases h; rfl
      refine ⟨?_, ?_, ?_⟩
      · set tk := s.tail.tail.takeWhile (fun ch => ch ≠ '\x7d') with htk
        set dr := s.tail.tail.dropWhile (fun ch => ch ≠ '\x7d') with hdr
        have hs1 := eq_cons_of_headEq s '\x7b' h1.1
        have hs2 := eq_cons_of_headEq s.tail '\x7b' h1.2
        have hdrx : dr = '\x7d' :: '\x7d' :: dr.tail.tail := by
          conv_lhs => rw [eq_cons_of_headEq dr '\x7d' hh1]
          conv_lhs => rw [eq_cons_of_headEq dr.tail '\x7d' hh2]
        have hsplit : s.tail.tail = tk ++ dr := (List.takeWhile_append_dropWhile _ _).symm
        rw [hname, hafter]
        calc s = '\x7b' :: s.tail := hs1
        _ = '\x7b' :: '\x7b' :: s.tail.tail := by rw [← hs2]
        _ = '\x7b' :: '\x7b' :: (tk ++ dr) := by rw [← hsplit]
        _ = '\x7b' :: '\x7b' :: (tk ++ '\x7d' :: '\x7d' :: dr.tail.tail) := by rw [← hdrx]
      · rw [hname]; exact hne
      · intro hmem
        have := List.mem_takeWhile_imp (hname ▸ hmem)
        simp at this
    · rw [if_neg h2] at h; cases h
  · rw [if_neg h1] at h; cases h

/-- The placeholder match fires on a literal `{{name}}` prefix. -/
theorem matchPlaceholder_complete (name after : List Char) (h1 : name ≠ [])
    (h2 : '\x7d' ∉ name) :
    matchPlaceholder ('\x7b' :: '\x7b' :: (name ++ '\x7d' :: '\x7d' :: after)) =
      some (name, after) := by
  have hpred : ∀ x ∈ name, (fun ch => decide (ch ≠ '\x7d')) x = true := by
    intro x hx
    exact decide_eq_true (fun he => h2 (he ▸ hx))
  have htw : (name ++ '\x7d' :: '\x7d' :: after).takeWhile (fun ch => ch ≠ '\x7d') = name := by
    rw [List.takeWhile_append, List.takeWhile_eq_self_iff.mpr hpred]
    simp [List.takeWhile_cons]
  have hdw : (name ++ '\x7d' :: '\x7d' :: after).dropWhile (fun ch => ch ≠ '\x7d') =
      '\x7d' :: '\x7d' :: after := by
    rw [List.dropWhile_append, List.dropWhile_eq_nil_iff.mpr hpred]
    simp [List.dropWhile_cons]
  simp only [matchPlaceholder, List.head?_cons, List.tail_cons]
  rw [htw, hdw]
  simp [h1]

/-- The scan on the empty remainder emits nothing (any fuel). -/
theorem interpAux_nil (vars : List (String × String)) (fuel : Nat) :
    interpAux vars fuel [] = [] := by
  cases fuel <;> rfl

/-- Scan step without a placeholder match: emit one character and rescan. -/
theorem interpAux_cons_nomatch (vars : List (String × String)) (fuel : Nat)
    (c : Char) (rest : List Char) (hm : matchPlaceholder (c :: rest) = none) :
    interpAux vars (fuel + 1) (c :: rest) = c :: interpAux vars fuel rest := by
  rw [interpAux, hm]

/-- Scan step on a matched placeholder with a present variable: emit the
escaped value. -/
theorem interpAux_cons_val (vars : List (String × String)) (fuel : Nat)
    (c : Char) (rest name after : List Char) (v : String)
    (hm : matchPlaceholder (c :: rest) = some (name, after))
    (hv : objGet vars (jsTrim (String.mk name)) = some v) :
    interpAux vars (fuel + 1) (c :: rest) =
      (escapeHtml v).data ++ interpAux vars fuel after := by
  rw [interpAux, hm]
  show (match objGet vars (jsTrim (String.mk name)) with
    | some v => (escapeHtml v).data ++ interpAux vars fuel after
    | none => '\x7b' :: '\x7b' :: (name ++ '\x7d' :: '\x7d' :: interpAux vars fuel after)) = _
  rw [hv]

/-- Scan step on a matched placeholder with no entry for the trimmed name:
emit the match verbatim. -/
theorem interpAux_cons_noval (vars : List (String × String)) (fuel : Nat)
    (c : Char) (rest name after : List Char)
    (hm : matchPlaceholder (c :: rest) = some (name, after))
    (hv : objGet vars (jsTrim (String.mk name)) = none) :
    interpAux vars (fuel + 1) (c :: rest) =
      '\x7b' :: '\x7b' :: (name ++ '\x7d' :: '\x7d' :: interpAux vars fuel after) := by
  rw [interpAux, hm]
  show (match objGet vars (jsTrim (String.mk name)) with
    | some v => (escapeHtml v).data ++ interpAux vars fuel after
    | none => '\x7b' :: '\x7b' :: (name ++ '\x7d' :: '\x7d' :: interpAux vars fuel after)) = _
  rw [hv]

/-- The raw scan on the empty remainder emits nothing (any fuel). -/
theorem interpTAux_nil (vars : List (String × String)) (fuel : Nat) :
    interpTAux vars fuel [] = [] := by
  cases fuel <;> rfl

/-- Raw-scan step without a placeholder match. -/
theorem interpTAux_cons_nomatch (vars : List (String × String)) (fuel : Nat)
    (c : Char) (rest : List Char) (hm : matchPlaceholder (c :: rest) = none) :
    interpTAux vars (fuel + 1) (c :: rest) = c :: interpTAux vars fuel rest := by
  rw [interpTAux, hm]

/-- Raw-scan step on a matched placeholder with a defined value: emit the raw
value, unescaped. -/
theorem interpTAux_cons_val (vars : List (String × String)) (fuel : Nat)
    (c : Char) (rest name after : List Char) (v : String)
    (hm : matchPlaceholder (c :: rest) = some (name, after))
    (hv : objGet vars (jsTrim (String.mk name)) = some v) :
    interpTAux vars (fuel + 1) (c :: rest) = v.data ++ interpTAux vars fuel after := by
  rw [interpTAux, hm]
  show (match objGet vars (jsTrim (String.mk name)) with
    | some v => v.data ++ interpTAux vars fuel after
    | none => '\x7b' :: '\x7b' :: (name ++ '\x7d' :: '\x7d' :: interpTAux vars fuel after)) = _
  rw [hv]

/-- Raw-scan step on a matched placeholder with no defined value. -/
theorem interpTAux_cons_noval (vars : List (String × String)) (fuel : Nat)
    (c : Char) (rest name after : List Char)
    (hm : matchPlaceholder (c :: rest) = some (name, after))
    (hv : objGet vars (jsTrim (String.mk name)) = none) :
    interpTAux vars (fuel + 1) (c :: rest) =
      '\x7b' :: '\x7b' :: (name ++ '\x7d' :: '\x7d' :: interpTAux vars fuel after) := by
  rw [interpTAux, hm]
  show (match objGet vars (jsTrim (String.mk name)) with
    | some v => v.data ++ interpTAux vars fuel after
    | none => '\x7b' :: '\x7b' :: (name ++ '\x7d' :: '\x7d' :: interpTAux vars fuel after)) = _
  rw [hv]

/-! ## Lemmas about `escapeHtml` -/

/-- Characters of a global replacement come from the replacement text or the
input. -/
theorem mem_replaceChar (target : Char) (rep l : List Char) (x : Char)
    (h : x ∈ replaceChar target rep l) : x ∈ rep ∨ x ∈ l := by
  induction l with
  | nil => cases h
  | cons c cs ih =>
    rw [replaceChar] at h
    by_cases hc : c = target
    · rw [if_pos hc] at h
      rcases List.mem_append.mp h with h1 | h2
      · exact Or.inl h1
      · rcases ih h2 with h3 | h4
        · exact Or.inl h3
        · exact Or.inr (List.mem_cons_of_mem _ h4)
    · rw [if_neg hc] at h
      rcases List.mem_cons.mp h with rfl | h2
      · exact Or.inr (List.mem_cons_self _ _)
      · rcases ih h2 with h3 | h4
        · exact Or.inl h3
        · exact Or.inr (List.mem_cons_of_mem _ h4)

/-- A global replacement eliminates its target character whenever the
replacement text does not contain it. -/
theorem not_mem_replaceChar_self (target : Char) (rep l : List Char) (ht : target ∉ rep) :
    target ∉ replaceChar target rep l := by
  induction l with
  | nil => intro h; cases h
  | cons c cs ih =>
    rw [replaceChar]
    by_cases hc : c = target
    · rw [if_pos hc]
      intro h
      rcases List.mem_append.mp h with h1 | h2
      · exact ht h1
      · exact ih h2
    · rw [if_neg hc]
      intro h
      rcases List.mem_cons.mp h with h1 | h2
      · exact hc h1.symm
      · exact ih h2

/-- The escaped form of any value contains no angle bracket and no quote
character: each is eliminated by its own replacement pass and introduced by no
later entity text. -/
theorem escapeHtml_no_markup (v : String) :
    '<' ∉ (escapeHtml v).data ∧ '>' ∉ (escapeHtml v).data ∧
      '"' ∉ (escapeHtml v).data ∧ '\'' ∉ (escapeHtml v).data := by
  refine ⟨?_, ?_, ?_, ?_⟩
  · intro h
    rcases mem_replaceChar _ _ _ _ h with h | h
    · exact absurd h (by decide)
    rcases mem_replaceChar _ _ _ _ h with h | h
    · exact absurd h (by decide)
    rcases mem_replaceChar _ _ _ _ h with h | h
    · exact absurd h (by decide)
    exact not_mem_replaceChar_self '<' _ _ (by decide) h
  · intro h
    rcases mem_replaceChar _ _ _ _ h with h | h
    · exact absurd h (by decide)
    rcases mem_replaceChar _ _ _ _ h with h | h
    · exact absurd h (by decide)
    exact not_mem_replaceChar_self '>' _ _ (by decide) h
  · intro h
    rcases mem_replaceChar _ _ _ _ h with h | h
    · exact absurd h (by decide)
    exact not_mem_replaceChar_self '"' _ _ (by decide) h
  · intro h
    exact not_mem_replaceChar_self '\'' _ _ (by decide) h

/-! ## Identity and provenance lemmas for the scans -/

/-- When no lookup succeeds, the escaping scan is the identity: matched
placeholders are re-emitted verbatim and other characters are copied. -/
theorem interpAux_id (vars : List (String × String)) (hnone : ∀ k, objGet vars k = none) :
    ∀ (fuel : Nat) (s : List Char), interpAux vars fuel s = s := by
  intro fuel
  induction fuel with
  | zero => intro s; rfl
  | succ fuel ih =>
    intro s
    cases s with
    | nil => rfl
    | cons c rest =>
      cases hm : matchPlaceholder (c :: rest) with
      | none => rw [interpAux_cons_nomatch vars fuel c rest hm, ih rest]
      | some p =>
        obtain ⟨heq, -, -⟩ := matchPlaceholder_eq_some _ p.1 p.2 (by rw [hm])
        rw [interpAux_cons_noval vars fuel c rest p.1 p.2 (by rw [hm]) (hnone _), ih p.2]
        exact heq.symm

/-- When no lookup succeeds, the raw scan is likewise the identity. -/
theorem interpTAux_id (vars : List (String × String)) (hnone : ∀ k, objGet vars k = none) :
    ∀ (fuel : Nat) (s : List Char), interpTAux vars fuel s = s := by
  intro fuel
  induction fuel with
  | zero => intro s; rfl
  | succ fuel ih =>
    intro s
    cases s with
    | nil => rfl
    | cons c rest =>
      cases hm : matchPlaceholder (c :: rest) with
      | none => rw [interpTAux_cons_nomatch vars fuel c rest hm, ih rest]
      | some p =>
        obtain ⟨heq, -, -⟩ := matchPlaceholder_eq_some _ p.1 p.2 (by rw [hm])
        rw [interpTAux_cons_noval vars fuel c rest p.1 p.2 (by rw [hm]) (hnone _), ih p.2]
        exact heq.symm

/-- Every character the escaping scan emits comes from the template itself or
from the escaped form of some looked-up value. -/
theorem interpAux_subset (vars : List (String × String)) :
    ∀ (fuel : Nat) (s : List Char) (c : Char), c ∈ interpAux vars fuel s →
      c ∈ s ∨ ∃ k v, objGet vars k = some v ∧ c ∈ (escapeHtml v).data := by
  intro fuel
  induction fuel with
  | zero => intro s c hc; exact Or.inl hc
  | succ fuel ih =>
    intro s c hc
    cases s with
    | nil => rw [interpAux_nil] at hc; cases hc
    | cons ch rest =>
      cases hm : matchPlaceholder (ch :: rest) with
      | none =>
        rw [interpAux_cons_nomatch vars fuel ch rest hm] at hc
        rcases List.mem_cons.mp hc with rfl | hc2
        · exact Or.inl (List.mem_cons_self _ _)
        · rcases ih rest c hc2 with h | h
          · exact Or.inl (List.mem_cons_of_mem _ h)
          · exact Or.inr h
      | some p =>
        obtain ⟨heq, -, -⟩ := matchPlaceholder_eq_some _ p.1 p.2 (by rw [hm])
        have hafter : ∀ x, x ∈ p.2 → x ∈ ch :: rest := by
          intro x hx
          rw [heq]
          exact List.mem_cons_of_mem _ (List.mem_cons_of_mem _
            (List.mem_append_right _ (List.mem_cons_of_mem _ (List.mem_cons_of_mem _ hx))))
        cases hv : objGet vars (jsTrim (String.mk p.1)) with
        | some v =>
          rw [interpAux_cons_val vars fuel ch rest p.1 p.2 v (by rw [hm]) hv] at hc
          rcases List.mem_append.mp hc with h | h
          · exact Or.inr ⟨_, v, hv, h⟩
          · rcases ih p.2 c h with h2 | h2
            · exact Or.inl (hafter c h2)
            · exact Or.inr h2
        | none =>
          rw [interpAux_cons_noval vars fuel ch rest p.1 p.2 (by rw [hm]) hv] at hc
          rcases List.mem_cons.mp hc with rfl | hc2
          · exact Or.inl (by rw [heq]; exact List.mem_cons_self _ _)
          rcases List.mem_cons.mp hc2 with rfl | hc3
          · exact Or.inl (by
              rw [heq]
              exact List.mem_cons_of_mem _ (List.mem_cons_self _ _))
          rcases List.mem_append.mp hc3 with hname | hc4
          · exact Or.inl (by
              rw [heq]
              exact List.mem_cons_of_mem _ (List.mem_cons_of_mem _
                (List.mem_append_left _ hname)))
          rcases List.mem_cons.mp hc4 with rfl | hc5
          · exact Or.inl (by
              rw [heq]
              exact List.mem_cons_of_mem _ (List.mem_cons_of_mem _
                (List.mem_append_right _ (List.mem_cons_self _ _))))
          rcases List.mem_cons.mp hc5 with rfl | hc6
          · exact Or.inl (by
              rw [heq]
              exact List.mem_cons_of_mem _ (List.mem_cons_of_mem _
                (List.mem_append_right _ (List.mem_cons_of_mem _ (List.mem_cons_self _ _)))))
          · rcases ih p.2 c hc6 with h2 | h2
            · exact Or.inl (hafter c h2)
            · exact Or.inr h2

/-- Character-list form of a single-placeholder template. -/
theorem placeholder_data (name : String) :
    ("\x7b\x7b" ++ name ++ "\x7d\x7d").data =
      '\x7b' :: '\x7b' :: (name.data ++ '\x7d' :: '\x7d' :: ([] : List Char)) := by
  rw [String.data_append, String.data_append]
  simp

/-- A single-placeholder template is not the empty string. -/
theorem placeholder_ne_empty (name : String) : ("\x7b\x7b" ++ name ++ "\x7d\x7d") ≠ "" := by
  intro h0
  have h1 : ('\x7b' :: '\x7b' :: (name.data ++ '\x7d' :: '\x7d' :: ([] : List Char))) = [] := by
    rw [← placeholder_data, h0]
  cases h1

/-- Length bookkeeping for the scan fuel of a single-placeholder template. -/
theorem placeholder_data_length (name : String) :
    ('\x7b' :: '\x7b' :: (name.data ++ '\x7d' :: '\x7d' :: ([] : List Char))).length =
      (name.data.length + 3) + 1 := by
  simp only [List.length_cons, List.length_append, List.length_nil]

/-! ## Claim C6: interpolation substitutes escaped values only -/

/-- Claim C6: `interpolate` replaces a `{{name}}` placeholder whose trimmed
name is present in the variable map by the escaped string form of the value;
the escaping eliminates the angle brackets and both quote characters (and the
ampersand pass runs first, so entity text is never double-readable as markup);
consequently any markup character in the output of `interpolate` already
occurred in the template itself — never in a substituted value — and the
spec's example substitution yields `&lt;tag&gt;` with no unescaped `<tag>`. -/
theorem interpolate_escapes :
    (∀ (t : String) (vars : List (String × String)) (c : Char),
      c = '<' ∨ c = '>' ∨ c = '"' ∨ c = '\'' →
      c ∈ (interpolate t vars).data → c ∈ t.data)
  ∧ (∀ v : String,
      '<' ∉ (escapeHtml v).data ∧ '>' ∉ (escapeHtml v).data ∧
        '"' ∉ (escapeHtml v).data ∧ '\'' ∉ (escapeHtml v).data)
  ∧ (∀ (vars : List (String × String)) (name v : String),
      name.data ≠ [] → '\x7d' ∉ name.data →
      objGet vars (jsTrim name) = some v →
      interpolate ("\x7b\x7b" ++ name ++ "\x7d\x7d") vars = escapeHtml v)
  ∧ interpolate "\x7b\x7bx\x7d\x7d" [("x", "<tag>")] = "&lt;tag&gt;" := by
  refine ⟨?_, escapeHtml_no_markup, ?_, by decide⟩
  · intro t vars c hc hmem
    by_cases ht : t = ""
    · subst ht
      cases hmem
    · rw [interpolate, if_neg ht] at hmem
      rcases interpAux_subset vars _ _ c hmem with h | ⟨k, v, -, hcv⟩
      · exact h
      · exfalso
        obtain ⟨hlt, hgt, hq1, hq2⟩ := escapeHtml_no_markup v
        rcases hc with rfl | rfl | rfl | rfl
        · exact hlt hcv
        · exact hgt hcv
        · exact hq1 hcv
        · exact hq2 hcv
  · intro vars name v h1 h2 hv
    rw [interpolate, if_neg (placeholder_ne_empty name), placeholder_data,
      placeholder_data_length,
      interpAux_cons_val vars (name.data.length + 3) '\x7b'
        ('\x7b' :: (name.data ++ '\x7d' :: '\x7d' :: [])) name.data [] v
        (matchPlaceholder_complete name.data [] h1 h2) hv,
      interpAux_nil, List.append_nil]

/-- Witness for C6: the spec's example substitution, the markup-freeness of an
escaped value, and a markup character in an output traced to the template. -/
theorem interpolate_escapes_witness :
    interpolate "\x7b\x7bx\x7d\x7d" [("x", "<tag>")] = escapeHtml "<tag>"
  ∧ '<' ∉ (escapeHtml "<tag>").data
  ∧ '<' ∈ ("a<b" : String).data := by
  refine ⟨interpolate_escapes.2.2.1 [("x", "<tag>")] "x" "<tag>"
      (by decide) (by decide) (by decide),
    (interpolate_escapes.2.1 "<tag>").1, ?_⟩
  exact interpolate_escapes.1 "a<b" [] '<' (Or.inl rfl) (by decide)

/-! ## Claim C7: unmatched placeholders pass through verbatim -/

/-- Claim C7: a `{{name}}` placeholder whose trimmed inner name has no entry in
the variable map is left in the output character for character — over an empty
(or entirely missing-key) map the whole template is returned unchanged, a
single unmatched placeholder is reproduced verbatim, and in particular
`interpolate("{{missing}}", {})` is `"{{missing}}"`. -/
theorem interpolate_unmatched :
    (∀ (t : String) (vars : List (String × String)),
      (∀ k, objGet vars k = none) → interpolate t vars = t)
  ∧ (∀ (vars : List (String × String)) (name : String),
      name.data ≠ [] → '\x7d' ∉ name.data → objGet vars (jsTrim name) = none →
      interpolate ("\x7b\x7b" ++ name ++ "\x7d\x7d") vars = "\x7b\x7b" ++ name ++ "\x7d\x7d")
  ∧ interpolate "\x7b\x7bmissing\x7d\x7d" [] = "\x7b\x7bmissing\x7d\x7d" := by
  refine ⟨?_, ?_, by decide⟩
  · intro t vars hnone
    by_cases ht : t = ""
    · rw [ht]; rfl
    · rw [interpolate, if_neg ht, interpAux_id vars hnone]
  · intro vars name h1 h2 hv
    rw [interpolate, if_neg (placeholder_ne_empty name), placeholder_data,
      placeholder_data_length,
      interpAux_cons_noval vars (name.data.length + 3) '\x7b'
        ('\x7b' :: (name.data ++ '\x7d' :: '\x7d' :: [])) name.data []
        (matchPlaceholder_complete name.data [] h1 h2) hv,
      interpAux_nil, ← placeholder_data]

/-- Witness for C7: identity over an empty map, and an unmatched placeholder
left verbatim beside a populated map lacking the name. -/
theorem interpolate_unmatched_witness :
    interpolate "hello \x7b\x7bworld\x7d\x7d" [] = "hello \x7b\x7bworld\x7d\x7d"
  ∧ interpolate "\x7b\x7bmissing\x7d\x7d" [("other", "v")] = "\x7b\x7bmissing\x7d\x7d" := by
  refine ⟨interpolate_unmatched.1 "hello \x7b\x7bworld\x7d\x7d" [] (fun k => rfl),
    interpolate_unmatched.2.1 [("other", "v")] "missing" (by decide) (by decide) (by decide)⟩

/-! ## Claim C10: the zip-packaging interpolation applies no escaping -/

/-- Claim C10: in the zip-packaging path, placeholder substitution is raw —
`interpolateTemplate` replaces a matched `{{name}}` whose trimmed name has a
defined value by the value string verbatim (markup characters included),
leaves unmatched placeholders intact, differs observably from the escaping
`interpolate` on a markup-bearing value, and is exactly the interpolation
applied to every template file entry that `buildZip` packages. -/
theorem interpolateTemplate_raw :
    (∀ (flatOptions : List (String × String)) (name v : String),
      name.data ≠ [] → '\x7d' ∉ name.data →
      objGet flatOptions (jsTrim name) = some v →
      interpolateTemplate ("\x7b\x7b" ++ name ++ "\x7d\x7d") flatOptions = v)
  ∧ (∀ content : String, interpolateTemplate content [] = content)
  ∧ interpolateTemplate "\x7b\x7bx\x7d\x7d" [("x", "<tag>")] = "<tag>"
  ∧ interpolateTemplate "\x7b\x7bx\x7d\x7d" [("x", "<tag>")] ≠
      interpolate "\x7b\x7bx\x7d\x7d" [("x", "<tag>")]
  ∧ (∀ (filename generatedMarkdown : String) (templateFiles : List TemplateFile)
        (options : List (String × List (String × String)))
        (selectedTechIds : List String) (technologies : List TechInfo),
      ∀ t ∈ templateFiles,
        (t.outputPath, interpolateTemplate t.content (flattenOptions options)) ∈
          buildZipFiles filename generatedMarkdown templateFiles options selectedTechIds
            technologies) := by
  refine ⟨?_, ?_, by decide, by decide, ?_⟩
  · intro flatOptions name v h1 h2 hv
    rw [interpolateTemplate, placeholder_data, placeholder_data_length,
      interpTAux_cons_val flatOptions (name.data.length + 3) '\x7b'
        ('\x7b' :: (name.data ++ '\x7d' :: '\x7d' :: [])) name.data [] v
        (matchPlaceholder_complete name.data [] h1 h2) hv,
      interpTAux_nil, List.append_nil]
  · intro content
    rw [interpolateTemplate, interpTAux_id [] (fun k => rfl)]
  · intro filename generatedMarkdown templateFiles options selectedTechIds technologies t ht
    simp only [buildZipFiles]
    exact List.mem_cons_of_mem _ (List.mem_append_left _ (List.mem_map.mpr ⟨t, ht, rfl⟩))

/-- Witness for C10: a markup-bearing value passed raw into the output, and a
template file whose raw-interpolated content appears among the packaged
`(path, content)` pairs. -/
theorem interpolateTemplate_raw_witness :
    interpolateTemplate "\x7b\x7bopt\x7d\x7d" [("opt", "<script>")] = "<script>"
  ∧ ("conf.yml",
      interpolateTemplate "\x7b\x7bopt\x7d\x7d" (flattenOptions [("T", [("opt", "val")])])) ∈
      buildZipFiles "" "md" [⟨"conf.yml", "\x7b\x7bopt\x7d\x7d"⟩]
        [("T", [("opt", "val")])] [] [] := by
  refine ⟨interpolateTemplate_raw.1 [("opt", "<script>")] "opt" "<script>"
      (by decide) (by decide) (by decide), ?_⟩
  exact interpolateTemplate_raw.2.2.2.2 "" "md" [⟨"conf.yml", "\x7b\x7bopt\x7d\x7d"⟩]
    [("T", [("opt", "val")])] [] [] ⟨"conf.yml", "\x7b\x7bopt\x7d\x7d"⟩ (by decide)

/-! ## Lemmas for the diff round trip (claim C1) -/

/-- Original-side projection of a `context` entry. -/
theorem diffOrigLines_context (x : String) (rest : List DiffEntry) :
    diffOrigLines ({ type := DiffType.context, line := x } :: rest) = x :: diffOrigLines rest := by
  simp [diffOrigLines]

/-- Original-side projection of a `removed` entry. -/
theorem diffOrigLines_removed (x : String) (rest : List DiffEntry) :
    diffOrigLines ({ type := DiffType.removed, line := x } :: rest) = x :: diffOrigLines rest := by
  simp [diffOrigLines]

/-- Original-side projection skips an `added` entry. -/
theorem diffOrigLines_added (x : String) (rest : List DiffEntry) :
    diffOrigLines ({ type := DiffType.added, line := x } :: rest) = diffOrigLines rest := by
  simp [diffOrigLines]

/-- Modified-side projection of a `context` entry. -/
theorem diffModLines_context (x : String) (rest : List DiffEntry) :
    diffModLines ({ type := DiffType.context, line := x } :: rest) = x :: diffModLines rest := by
  simp [diffModLines]

/-- Modified-side projection of an `added` entry. -/
theorem diffModLines_added (x : String) (rest : List DiffEntry) :
    diffModLines ({ type := DiffType.added, line := x } :: rest) = x :: diffModLines rest := by
  simp [diffModLines]

/-- Modified-side projection skips a `removed` entry. -/
theorem diffModLines_removed (x : String) (rest : List DiffEntry) :
    diffModLines ({ type := DiffType.removed, line := x } :: rest) = diffModLines rest := by
  simp [diffModLines]

/-- The backtracking result is a common subsequence of the two inputs
(whatever table it reads): each diagonal step appends the shared element just
past both prefixes, and the other steps only shrink a cursor. -/
theorem lcsBacktrack_sublist (a b : List String) (dp : List (List Nat)) :
    ∀ (fuel i j : Nat), i ≤ a.length → j ≤ b.length →
      (lcsBacktrack a b dp fuel i j).Sublist (a.take i) ∧
        (lcsBacktrack a b dp fuel i j).Sublist (b.take j) := by
  intro fuel
  induction fuel with
  | zero => intro i j hi hj; exact ⟨List.nil_sublist _, List.nil_sublist _⟩
  | succ fuel ih =>
    intro i j hi hj
    match i, j with
    | 0, j => rw [lcsBacktrack]; exact ⟨List.nil_sublist _, List.nil_sublist _⟩
    | i + 1, 0 => rw [lcsBacktrack]; exact ⟨List.nil_sublist _, List.nil_sublist _⟩
    | i + 1, j + 1 =>
      rw [lcsBacktrack]
      have hia : i < a.length := by omega
      have hjb : j < b.length := by omega
      by_cases heq : a.getD i "" = b.getD j ""
      · rw [if_pos heq]
        obtain ⟨h1, h2⟩ := ih i j (by omega) (by omega)
        have hta : a.take (i + 1) = a.take i ++ [a.getD i ""] := by
          rw [List.take_succ, List.getElem?_eq_getElem hia]
          rw [List.getD_eq_getElem?_getD, List.getElem?_eq_getElem hia]
          rfl
        have htb : b.take (j + 1) = b.take j ++ [a.getD i ""] := by
          rw [List.take_succ, List.getElem?_eq_getElem hjb]
          rw [heq, List.getD_eq_getElem?_getD, List.getElem?_eq_getElem hjb]
          rfl
        constructor
        · rw [hta]
          exact List.Sublist.append h1 (List.Sublist.refl _)
        · rw [htb]
          exact List.Sublist.append h2 (List.Sublist.refl _)
      · rw [if_neg heq]
        by_cases hgt : dpAt dp i (j + 1) > dpAt dp (i + 1) j
        · rw [if_pos hgt]
          obtain ⟨h1, h2⟩ := ih i (j + 1) (by omega) hj
          exact ⟨h1.trans (List.take_prefix_take_left a (by omega)).sublist, h2⟩
        · rw [if_neg hgt]
          obtain ⟨h1, h2⟩ := ih (i + 1) j hi (by omega)
          exact ⟨h1, h2.trans (List.take_prefix_take_left b (by omega)).sublist⟩

/-- The computed LCS is a common subsequence of the two line lists. -/
theorem computeLCS_sublist (a b : List String) :
    (computeLCS a b).Sublist a ∧ (computeLCS a b).Sublist b := by
  have h := lcsBacktrack_sublist a b (lcsTable a b) (a.length + b.length)
    a.length b.length le_rfl le_rfl
  rwa [List.take_length, List.take_length] at h

/-- The diff walk emits every original line exactly once as `context` or
`removed` and every modified line exactly once as `context` or `added`, in
order, whenever the third list is a common subsequence of the two sides and
the fuel covers the total length (each step consumes at least one line). -/
theorem diffWalk_roundtrip :
    ∀ (fuel : Nat) (o m l : List String), o.length + m.length ≤ fuel →
      l.Sublist o → l.Sublist m →
      diffOrigLines (diffWalk fuel o m l) = o ∧ diffModLines (diffWalk fuel o m l) = m := by
  intro fuel
  induction fuel with
  | zero =>
    intro o m l hlen ho hm
    have ho0 : o = [] := List.eq_nil_of_length_eq_zero (by omega)
    have hm0 : m = [] := List.eq_nil_of_length_eq_zero (by omega)
    subst ho0; subst hm0
    exact ⟨rfl, rfl⟩
  | succ fuel ih =>
    intro o m l hlen ho hm
    cases o with
    | nil =>
      cases m with
      | nil => exact ⟨rfl, rfl⟩
      | cons y ms =>
        cases l with
        | nil =>
          rw [diffWalk]
          obtain ⟨ih1, ih2⟩ := ih [] ms [] (by simp at hlen ⊢; omega)
            (List.nil_sublist _) (List.nil_sublist _)
          rw [diffOrigLines_added, diffModLines_added, ih1, ih2]
          exact ⟨rfl, rfl⟩
        | cons lc ls =>
          rw [List.sublist_nil] at ho
          cases ho
    | cons x os =>
      cases m with
      | nil =>
        cases l with
        | nil =>
          rw [diffWalk]
          obtain ⟨ih1, ih2⟩ := ih os [] [] (by simp at hlen ⊢; omega)
            (List.nil_sublist _) (List.nil_sublist _)
          rw [diffOrigLines_removed, diffModLines_removed, ih1, ih2]
          exact ⟨rfl, rfl⟩
        | cons lc ls =>
          rw [List.sublist_nil] at hm
          cases hm
      | cons y ms =>
        cases l with
        | nil =>
          rw [diffWalk]
          obtain ⟨ih1, ih2⟩ := ih os (y :: ms) [] (by simp at hlen ⊢; omega)
            (List.nil_sublist _) (List.nil_sublist _)
          rw [diffOrigLines_removed, diffModLines_removed, ih1, ih2]
          exact ⟨rfl, rfl⟩
        | cons lc ls =>
          rw [diffWalk]
          by_cases hx : x = lc
          · subst hx
            by_cases hy : y = x
            · subst hy
              rw [if_pos rfl, if_pos rfl]
              have ho2 : ls.Sublist os := (List.cons_sublist_cons).mp ho
              have hm2 : ls.Sublist ms := (List.cons_sublist_cons).mp hm
              obtain ⟨ih1, ih2⟩ := ih os ms ls (by simp at hlen ⊢; omega) ho2 hm2
              rw [diffOrigLines_context, diffModLines_context, ih1, ih2]
              exact ⟨rfl, rfl⟩
            · rw [if_pos rfl, if_neg hy]
              have hm2 : (x :: ls).Sublist ms := by
                cases hm with
                | cons _ h => exact h
                | cons₂ _ h => exact absurd rfl hy
              obtain ⟨ih1, ih2⟩ := ih (x :: os) ms (x :: ls)
                (by simp at hlen ⊢; omega) ho hm2
              rw [diffOrigLines_added, diffModLines_added, ih1, ih2]
              exact ⟨rfl, rfl⟩
          · rw [if_neg hx]
            have ho2 : (lc :: ls).Sublist os := by
              cases ho with
              | cons _ h => exact h
              | cons₂ _ h => exact absurd rfl hx
            obtain ⟨ih1, ih2⟩ := ih os (y :: ms) (lc :: ls)
              (by simp at hlen ⊢; omega) ho2 hm
            rw [diffOrigLines_removed, diffModLines_removed, ih1, ih2]
            exact ⟨rfl, rfl⟩

/-- Claim C1: `computeDiff` emits each original line exactly once as a
`context` or `removed` entry and each modified line exactly once as a
`context` or `added` entry, such that the `context`+`removed` lines in emitted
order reconstruct the original line sequence and the `context`+`added` lines
reconstruct the modified line sequence. -/
theorem computeDiff_round_trip (original modified : String) :
    diffOrigLines (computeDiff original modified) = splitLines original
  ∧ diffModLines (computeDiff original modified) = splitLines modified := by
  obtain ⟨h1, h2⟩ := computeLCS_sublist (splitLines original) (splitLines modified)
  exact diffWalk_roundtrip _ _ _ _ le_rfl h1 h2

/-! ## Lemmas for unified-diff formatting (claim C9) -/

/-- The head given by `head?` is a member. -/
theorem mem_of_headEq {α : Type} (l : List α) (a : α) (h : l.head? = some a) : a ∈ l := by
  rw [eq_cons_of_headEq l a h]
  exact List.mem_cons_self _ _

/-- Numbering preserves the entry count. -/
theorem length_numberEntries : ∀ (d : List DiffEntry) (ol ml : Nat),
    (numberEntries d ol ml).length = d.length := by
  intro d
  induction d with
  | nil => intro ol ml; rfl
  | cons e rest ih =>
    intro ol ml
    rw [numberEntries]
    cases he : e.type <;> simp [ih]

/-- Change indices lie in the index range of the remaining entries. -/
theorem changeIndices_bounds : ∀ (l : List NumberedEntry) (i : Nat),
    ∀ x ∈ changeIndices l i, i ≤ x ∧ x < i + l.length := by
  intro l
  induction l with
  | nil => intro i x hx; cases hx
  | cons e rest ih =>
    intro i x hx
    rw [changeIndices] at hx
    by_cases he : (e.type == DiffType.context) = true
    · rw [if_pos he] at hx
      obtain ⟨h1, h2⟩ := ih (i + 1) x hx
      refine ⟨by omega, ?_⟩
      simp only [List.length_cons]
      omega
    · rw [if_neg he] at hx
      rcases List.mem_cons.mp hx with rfl | hx2
      · refine ⟨le_rfl, ?_⟩
        simp only [List.length_cons]
        omega
      · obtain ⟨h1, h2⟩ := ih (i + 1) x hx2
        refine ⟨by omega, ?_⟩
        simp only [List.length_cons]
        omega

/-- Change indices are strictly increasing. -/
theorem changeIndices_sorted : ∀ (l : List NumberedEntry) (i : Nat),
    List.Pairwise (· < ·) (changeIndices l i) := by
  intro l
  induction l with
  | nil => intro i; exact List.Pairwise.nil
  | cons e rest ih =>
    intro i
    rw [changeIndices]
    by_cases he : (e.type == DiffType.context) = true
    · rw [if_pos he]; exact ih (i + 1)
    · rw [if_neg he]
      refine List.pairwise_cons.mpr ⟨?_, ih (i + 1)⟩
      intro x hx
      have := (changeIndices_bounds rest (i + 1) x hx).1
      omega

/-- A diff of pure `context` entries yields no change indices. -/
theorem changeIndices_all_context : ∀ (d : List DiffEntry) (ol ml i : Nat),
    (∀ e ∈ d, e.type = DiffType.context) →
    changeIndices (numberEntries d ol ml) i = [] := by
  intro d
  induction d with
  | nil => intro ol ml i h; rfl
  | cons e rest ih =>
    intro ol ml i h
    have he := h e (List.mem_cons_self _ _)
    rw [numberEntries, he]
    show changeIndices (NumberedEntry.mk DiffType.context e.line (some ol) (some ml)
      :: numberEntries rest (ol + 1) (ml + 1)) i = []
    have hcond : ((NumberedEntry.mk DiffType.context e.line (some ol) (some ml)).type ==
        DiffType.context) = true := rfl
    rw [changeIndices, if_pos hcond]
    exact ih (ol + 1) (ml + 1) (i + 1) (fun x hx => h x (List.mem_cons_of_mem _ hx))

/-- All line numbers produced by the numbering pass from 1-based counters are
at least 1. -/
theorem numberEntries_pos : ∀ (d : List DiffEntry) (ol ml : Nat), 1 ≤ ol → 1 ≤ ml →
    ∀ x ∈ numberEntries d ol ml,
      (∀ v, x.origLine = some v → 1 ≤ v) ∧ (∀ v, x.modLine = some v → 1 ≤ v) := by
  intro d
  induction d with
  | nil => intro ol ml h1 h2 x hx; cases hx
  | cons e rest ih =>
    intro ol ml h1 h2 x hx
    rw [numberEntries] at hx
    cases he : e.type <;> rw [he] at hx
    case context =>
      rcases List.mem_cons.mp hx with rfl | hx2
      · exact ⟨fun v hv => by cases hv; exact h1, fun v hv => by cases hv; exact h2⟩
      · exact ih (ol + 1) (ml + 1) (by omega) (by omega) x hx2
    case removed =>
      rcases List.mem_cons.mp hx with rfl | hx2
      · exact ⟨fun v hv => by cases hv; exact h1, fun v hv => by exact absurd hv (by simp)⟩
      · exact ih (ol + 1) ml (by omega) h2 x hx2
    case added =>
      rcases List.mem_cons.mp hx with rfl | hx2
      · exact ⟨fun v hv => by exact absurd hv (by simp), fun v hv => by cases hv; exact h2⟩
      · exact ih ol (ml + 1) h1 (by omega) x hx2

/-- The original-side entry count of a window is its `context` count plus its
`removed` count. -/
theorem length_filter_not_added (l : List NumberedEntry) :
    (l.filter (fun e => !(e.type == DiffType.added))).length =
      (l.filter (fun e => e.type == DiffType.context)).length +
        (l.filter (fun e => e.type == DiffType.removed)).length := by
  induction l with
  | nil => rfl
  | cons e rest ih =>
    rw [List.filter_cons, List.filter_cons, List.filter_cons]
    cases he : e.type <;> simp [he, ih] <;> try omega

/-- The modified-side entry count of a window is its `context` count plus its
`added` count. -/
theorem length_filter_not_removed (l : List NumberedEntry) :
    (l.filter (fun e => !(e.type == DiffType.removed))).length =
      (l.filter (fun e => e.type == DiffType.context)).length +
        (l.filter (fun e => e.type == DiffType.added)).length := by
  induction l with
  | nil => rfl
  | cons e rest ih =>
    rw [List.filter_cons, List.filter_cons, List.filter_cons]
    cases he : e.type <;> simp [he, ih] <;> try omega

/-- `formatUnifiedDiff` returns the empty string when there are no change
indices. -/
theorem formatUnifiedDiff_eq_empty (original modified : String) (ctx : Nat)
    (h : changeIndices (numberedDiff original modified) 0 = []) :
    formatUnifiedDiff original modified ctx = "" := by
  rw [numberedDiff] at h
  simp only [formatUnifiedDiff, h]

/-- `formatUnifiedDiff` in the presence of at least one change index: the
file header followed by the rendered hunks, joined by newlines. -/
theorem formatUnifiedDiff_eq_cons (original modified : String) (ctx : Nat)
    (c0 : Nat) (rest : List Nat)
    (h : changeIndices (numberedDiff original modified) 0 = c0 :: rest) :
    formatUnifiedDiff original modified ctx =
      String.intercalate "\n" ("--- original" :: "+++ modified" ::
        (hunksOf (numberedDiff original modified) ctx).flatMap
          (renderHunk (numberedDiff original modified))) := by
  rw [numberedDiff] at h
  simp only [formatUnifiedDiff, hunksOf, numberedDiff, h]

/-- All line numbers in a numbered diff are at least 1. -/
theorem numberedDiff_pos (original modified : String) :
    ∀ x ∈ numberedDiff original modified,
      (∀ v, x.origLine = some v → 1 ≤ v) ∧ (∀ v, x.modLine = some v → 1 ≤ v) :=
  numberEntries_pos (computeDiff original modified) 1 1 le_rfl le_rfl

/-- Shape of a rendered hunk: a `@@`-header built from 1-based starts and the
per-side counts (context plus changed lines of that side), followed by the
prefixed body lines. -/
theorem renderHunk_shape (entries : List NumberedEntry) (hk : Nat × Nat)
    (hpos : ∀ x ∈ entries,
      (∀ v, x.origLine = some v → 1 ≤ v) ∧ (∀ v, x.modLine = some v → 1 ≤ v)) :
    ∃ oS mS, 1 ≤ oS ∧ 1 ≤ mS ∧
      renderHunk entries hk =
        hunkHeader oS
          (((hunkSlice entries hk).filter (fun e => e.type == DiffType.context)).length +
            ((hunkSlice entries hk).filter (fun e => e.type == DiffType.removed)).length)
          mS
          (((hunkSlice entries hk).filter (fun e => e.type == DiffType.context)).length +
            ((hunkSlice entries hk).filter (fun e => e.type == DiffType.added)).length)
        :: (hunkSlice entries hk).map renderLine := by
  have hmem : ∀ x ∈ hunkSlice entries hk, x ∈ entries := by
    intro x hx
    exact List.mem_of_mem_drop (List.mem_of_mem_take hx)
  refine ⟨((((hunkSlice entries hk).filter
      (fun e => !(e.type == DiffType.added))).head?.bind NumberedEntry.origLine).getD 1),
    ((((hunkSlice entries hk).filter
      (fun e => !(e.type == DiffType.removed))).head?.bind NumberedEntry.modLine).getD 1),
    ?_, ?_, ?_⟩
  · cases hb : ((hunkSlice entries hk).filter
        (fun e => !(e.type == DiffType.added))).head?.bind NumberedEntry.origLine with
    | none => simp
    | some v =>
      obtain ⟨x0, hx0, hx0v⟩ := Option.bind_eq_some.mp hb
      have hx0mem : x0 ∈ entries :=
        hmem x0 (List.mem_of_mem_filter (mem_of_headEq _ _ hx0))
      simpa using (hpos x0 hx0mem).1 v hx0v
  · cases hb : ((hunkSlice entries hk).filter
        (fun e => !(e.type == DiffType.removed))).head?.bind NumberedEntry.modLine with
    | none => simp
    | some v =>
      obtain ⟨x0, hx0, hx0v⟩ := Option.bind_eq_some.mp hb
      have hx0mem : x0 ∈ entries :=
        hmem x0 (List.mem_of_mem_filter (mem_of_headEq _ _ hx0))
      simpa using (hpos x0 hx0mem).2 v hx0v
  · simp only [renderHunk, length_filter_not_added, length_filter_not_removed]

/-- Invariants of the hunk-grouping loop: the first emitted hunk keeps the
current window start and can only extend its end; emitted hunks are separated
by a real gap (otherwise they would have merged); every hunk window is
well-formed and stays inside the entry range; and every remaining change
index ends up inside some hunk together with its whole clamped context
window. -/
theorem buildHunks_spec (n ctx : Nat) : ∀ (cs : List Nat) (s e : Nat),
    List.Pairwise (fun a b => a < b) cs →
    (∀ c ∈ cs, s ≤ c - ctx ∧ c < n ∧ e ≤ min (n - 1) (c + ctx)) →
    s ≤ e → e ≤ n - 1 →
    (∃ e2, e ≤ e2 ∧ (buildHunks n ctx cs s e).head? = some (s, e2))
  ∧ List.Chain' (fun h1 h2 => h1.2 + 1 < h2.1) (buildHunks n ctx cs s e)
  ∧ (∀ hk ∈ buildHunks n ctx cs s e, hk.1 ≤ hk.2 ∧ hk.2 ≤ n - 1)
  ∧ (∀ c ∈ cs, ∃ hk ∈ buildHunks n ctx cs s e,
      hk.1 ≤ c - ctx ∧ min (n - 1) (c + ctx) ≤ hk.2) := by
  intro cs
  induction cs with
  | nil =>
    intro s e _ _ hse hen
    refine ⟨⟨e, le_rfl, rfl⟩, List.chain'_singleton _, ?_, ?_⟩
    · intro hk hhk
      rw [buildHunks] at hhk
      rw [List.mem_singleton] at hhk
      subst hhk
      exact ⟨hse, hen⟩
    · intro c hc
      cases hc
  | cons c cs ih =>
    intro s e hsort hinv hse hen
    obtain ⟨hc_s, hc_n, hc_e⟩ := hinv c (List.mem_cons_self _ _)
    have hlt := (List.pairwise_cons.mp hsort).1
    have hsort' := (List.pairwise_cons.mp hsort).2
    have hne1 : c - ctx ≤ min (n - 1) (c + ctx) := le_min (by omega) (by omega)
    have hne2 : min (n - 1) (c + ctx) ≤ n - 1 := min_le_left _ _
    have hinvmin : ∀ x ∈ cs, min (n - 1) (c + ctx) ≤ min (n - 1) (x + ctx) := by
      intro x hx
      exact min_le_min le_rfl (by have := hlt x hx; omega)
    simp only [buildHunks]
    by_cases hm : c - ctx ≤ e + 1
    · rw [if_pos hm]
      have hinv' : ∀ x ∈ cs, s ≤ x - ctx ∧ x < n ∧
          min (n - 1) (c + ctx) ≤ min (n - 1) (x + ctx) := by
        intro x hx
        obtain ⟨h1, h2, _⟩ := hinv x (List.mem_cons_of_mem _ hx)
        exact ⟨h1, h2, hinvmin x hx⟩
      have hse' : s ≤ min (n - 1) (c + ctx) := le_trans hc_s hne1
      obtain ⟨⟨e2, he2, hhead⟩, hchain, hbnd, hcov⟩ :=
        ih s (min (n - 1) (c + ctx)) hsort' hinv' hse' hne2
      refine ⟨⟨e2, le_trans hc_e he2, hhead⟩, hchain, hbnd, ?_⟩
      intro x hx
      rcases List.mem_cons.mp hx with rfl | hx2
      · exact ⟨(s, e2), mem_of_headEq _ _ hhead, hc_s, he2⟩
      · exact hcov x hx2
    · rw [if_neg hm]
      have hinv' : ∀ x ∈ cs, c - ctx ≤ x - ctx ∧ x < n ∧
          min (n - 1) (c + ctx) ≤ min (n - 1) (x + ctx) := by
        intro x hx
        obtain ⟨_, h2, _⟩ := hinv x (List.mem_cons_of_mem _ hx)
        exact ⟨Nat.sub_le_sub_right (le_of_lt (hlt x hx)) ctx, h2, hinvmin x hx⟩
      obtain ⟨⟨e2, he2, hhead⟩, hchain, hbnd, hcov⟩ :=
        ih (c - ctx) (min (n - 1) (c + ctx)) hsort' hinv' hne1 hne2
      refine ⟨⟨e, le_rfl, rfl⟩, ?_, ?_, ?_⟩
      · refine List.chain'_cons'.mpr ⟨?_, hchain⟩
        intro y hy
        rw [hhead, Option.mem_some_iff] at hy
        subst hy
        show e + 1 < c - ctx
        omega
      · intro hk hhk
        rcases List.mem_cons.mp hhk with rfl | hhk2
        · exact ⟨hse, hen⟩
        · exact hbnd hk hhk2
      · intro x hx
        rcases List.mem_cons.mp hx with rfl | hx2
        · exact ⟨(x - ctx, e2), List.mem_cons_of_mem _ (mem_of_headEq _ _ hhead),
            le_rfl, he2⟩
        · obtain ⟨hk, hkmem, hk1, hk2⟩ := hcov x hx2
          exact ⟨hk, List.mem_cons_of_mem _ hkmem, hk1, hk2⟩

/-- Properties of the hunk list when at least one change index exists:
consecutive hunks are separated by a gap of more than one entry (touching or
overlapping context windows were merged), every hunk window is well-formed
and inside the entry range, and every change index lies in some hunk together
with its whole clamped context window. -/
theorem hunksOf_spec (entries : List NumberedEntry) (ctx : Nat)
    (c0 : Nat) (rest : List Nat)
    (h : changeIndices entries 0 = c0 :: rest) :
    List.Chain' (fun h1 h2 => h1.2 + 1 < h2.1) (hunksOf entries ctx)
  ∧ (∀ hk ∈ hunksOf entries ctx, hk.1 ≤ hk.2 ∧ hk.2 ≤ entries.length - 1)
  ∧ (∀ c ∈ changeIndices entries 0, ∃ hk ∈ hunksOf entries ctx,
      hk.1 ≤ c - ctx ∧ min (entries.length - 1) (c + ctx) ≤ hk.2) := by
  have hsorted := changeIndices_sorted entries 0
  have hbounds := changeIndices_bounds entries 0
  rw [h] at hsorted hbounds
  have hc0n : c0 < entries.length := by
    have := hbounds c0 (List.mem_cons_self _ _)
    omega
  have hlt := (List.pairwise_cons.mp hsorted).1
  have hsort' := (List.pairwise_cons.mp hsorted).2
  have hinv : ∀ x ∈ rest, c0 - ctx ≤ x - ctx ∧ x < entries.length ∧
      min (entries.length - 1) (c0 + ctx) ≤ min (entries.length - 1) (x + ctx) := by
    intro x hx
    have hxn := hbounds x (List.mem_cons_of_mem _ hx)
    have hcx := hlt x hx
    exact ⟨Nat.sub_le_sub_right (le_of_lt hcx) ctx, by omega,
      min_le_min le_rfl (by omega)⟩
  have hse : c0 - ctx ≤ min (entries.length - 1) (c0 + ctx) :=
    le_min (by omega) (by omega)
  have hen : min (entries.length - 1) (c0 + ctx) ≤ entries.length - 1 :=
    min_le_left _ _
  obtain ⟨⟨e2, he2, hhead⟩, hchain, hbnd, hcov⟩ :=
    buildHunks_spec entries.length ctx rest (c0 - ctx)
      (min (entries.length - 1) (c0 + ctx)) hsort' hinv hse hen
  have hunksOf_eq : hunksOf entries ctx = buildHunks entries.length ctx rest
      (c0 - ctx) (min (entries.length - 1) (c0 + ctx)) := by
    simp only [hunksOf, h]
  rw [hunksOf_eq, h]
  refine ⟨hchain, hbnd, ?_⟩
  intro c hc
  rcases List.mem_cons.mp hc with rfl | hc2
  · exact ⟨(c - ctx, e2), mem_of_headEq _ _ hhead, le_rfl, he2⟩
  · exact hcov c hc2

/-- **C9.** For every pair of inputs and every `contextLines` value,
`formatUnifiedDiff` groups change regions with up to `contextLines`
surrounding context lines into hunks, merging hunks whose context windows
overlap or touch (the emitted hunks are separated by a real gap, each hunk
window is well-formed and inside the entry range, and every change index lies
in some hunk together with its whole clamped context window); each hunk is
headed by `@@ -origStart,origCount +modStart,modCount @@` with 1-based starts
and counts covering that side's context plus changed lines; it returns the
empty string when the diff contains no added or removed entries; and two
one-line changes two lines apart with `contextLines = 3` produce exactly one
merged hunk. -/
theorem formatUnifiedDiff_spec :
    (∀ original modified ctx,
      (∀ e ∈ computeDiff original modified, e.type = DiffType.context) →
      formatUnifiedDiff original modified ctx = "")
  ∧ (∀ original modified ctx c0 rest,
      changeIndices (numberedDiff original modified) 0 = c0 :: rest →
        formatUnifiedDiff original modified ctx =
          String.intercalate "\n" ("--- original" :: "+++ modified" ::
            (hunksOf (numberedDiff original modified) ctx).flatMap
              (renderHunk (numberedDiff original modified)))
      ∧ List.Chain' (fun h1 h2 => h1.2 + 1 < h2.1)
          (hunksOf (numberedDiff original modified) ctx)
      ∧ (∀ hk ∈ hunksOf (numberedDiff original modified) ctx,
          hk.1 ≤ hk.2 ∧ hk.2 ≤ (numberedDiff original modified).length - 1)
      ∧ (∀ c ∈ changeIndices (numberedDiff original modified) 0,
          ∃ hk ∈ hunksOf (numberedDiff original modified) ctx,
            hk.1 ≤ c - ctx ∧
              min ((numberedDiff original modified).length - 1) (c + ctx) ≤ hk.2))
  ∧ (∀ original modified ctx hk,
      hk ∈ hunksOf (numberedDiff original modified) ctx →
      ∃ oS mS, 1 ≤ oS ∧ 1 ≤ mS ∧
        renderHunk (numberedDiff original modified) hk =
          hunkHeader oS
            (((hunkSlice (numberedDiff original modified) hk).filter
                (fun e => e.type == DiffType.context)).length +
              ((hunkSlice (numberedDiff original modified) hk).filter
                (fun e => e.type == DiffType.removed)).length)
            mS
            (((hunkSlice (numberedDiff original modified) hk).filter
                (fun e => e.type == DiffType.context)).length +
              ((hunkSlice (numberedDiff original modified) hk).filter
                (fun e => e.type == DiffType.added)).length)
          :: (hunkSlice (numberedDiff original modified) hk).map renderLine)
  ∧ (formatUnifiedDiff "line0\nline1\nline2\nline3\nline4\nline5\nline6\nline7"
        "line0\nLINE1\nline2\nline3\nLINE4\nline5\nline6\nline7" 3 =
      String.append "--- original\n+++ modified\n@@ -1,8 +1,8 @@\n line0\n-line1\n+LINE1"
        "\n line2\n line3\n-line4\n+LINE4\n line5\n line6\n line7"
    ∧ hunksOf (numberedDiff "line0\nline1\nline2\nline3\nline4\nline5\nline6\nline7"
        "line0\nLINE1\nline2\nline3\nLINE4\nline5\nline6\nline7") 3 = [(0, 9)]) := by
  refine ⟨?_, ?_, ?_, ?_⟩
  · intro original modified ctx h
    refine formatUnifiedDiff_eq_empty original modified ctx ?_
    rw [numberedDiff]
    exact changeIndices_all_context (computeDiff original modified) 1 1 0 h
  · intro original modified ctx c0 rest h
    obtain ⟨h1, h2, h3⟩ := hunksOf_spec (numberedDiff original modified) ctx c0 rest h
    exact ⟨formatUnifiedDiff_eq_cons original modified ctx c0 rest h, h1, h2, h3⟩
  · intro original modified ctx hk _
    exact renderHunk_shape (numberedDiff original modified) hk
      (numberedDiff_pos original modified)
  · exact ⟨by decide, by decide⟩

/-- Witness for the unified-diff specification: identical two-line inputs
format to the empty string; the two-changes-two-lines-apart example yields a
gap-separated (here: single) hunk list; and its hunk `(0, 9)` renders with a
well-formed header. -/
theorem formatUnifiedDiff_spec_witness :
    formatUnifiedDiff "a\nb" "a\nb" 3 = ""
  ∧ List.Chain' (fun h1 h2 => h1.2 + 1 < h2.1)
      (hunksOf (numberedDiff "line0\nline1\nline2\nline3\nline4\nline5\nline6\nline7"
        "line0\nLINE1\nline2\nline3\nLINE4\nline5\nline6\nline7") 3)
  ∧ (∃ oS mS, 1 ≤ oS ∧ 1 ≤ mS ∧
      renderHunk (numberedDiff "line0\nline1\nline2\nline3\nline4\nline5\nline6\nline7"
          "line0\nLINE1\nline2\nline3\nLINE4\nline5\nline6\nline7") (0, 9) =
        hunkHeader oS
          (((hunkSlice (numberedDiff "line0\nline1\nline2\nline3\nline4\nline5\nline6\nline7"
              "line0\nLINE1\nline2\nline3\nLINE4\nline5\nline6\nline7") (0, 9)).filter
              (fun e => e.type == DiffType.context)).length +
            ((hunkSlice (numberedDiff "line0\nline1\nline2\nline3\nline4\nline5\nline6\nline7"
              "line0\nLINE1\nline2\nline3\nLINE4\nline5\nline6\nline7") (0, 9)).filter
              (fun e => e.type == DiffType.removed)).length)
          mS
          (((hunkSlice (numberedDiff "line0\nline1\nline2\nline3\nline4\nline5\nline6\nline7"
              "line0\nLINE1\nline2\nline3\nLINE4\nline5\nline6\nline7") (0, 9)).filter
              (fun e => e.type == DiffType.context)).length +
            ((hunkSlice (numberedDiff "line0\nline1\nline2\nline3\nline4\nline5\nline6\nline7"
              "line0\nLINE1\nline2\nline3\nLINE4\nline5\nline6\nline7") (0, 9)).filter
              (fun e => e.type == DiffType.added)).length)
        :: (hunkSlice (numberedDiff "line0\nline1\nline2\nline3\nline4\nline5\nline6\nline7"
            "line0\nLINE1\nline2\nline3\nLINE4\nline5\nline6\nline7") (0, 9)).map
            renderLine) := by
  refine ⟨?_, ?_, ?_⟩
  · exact formatUnifiedDiff_spec.1 "a\nb" "a\nb" 3 (by decide)
  · exact (formatUnifiedDiff_spec.2.1
      "line0\nline1\nline2\nline3\nline4\nline5\nline6\nline7"
      "line0\nLINE1\nline2\nline3\nLINE4\nline5\nline6\nline7" 3 1 [2, 5, 6]
      (by decide)).2.1
  · exact formatUnifiedDiff_spec.2.2.1
      "line0\nline1\nline2\nline3\nline4\nline5\nline6\nline7"
      "line0\nLINE1\nline2\nline3\nLINE4\nline5\nline6\nline7" 3 (0, 9) (by decide)
